import Mathlib

/-!
Verification of the virtual-DOM library ("smvc") presented in the post
"A virtual DOM in 200 lines of JavaScript".  The definitions below are a
shallow embedding of the JavaScript source: virtual nodes, the diffing
functions `diffOne` / `diffList`, the live-DOM model with `create`,
`apply` and `modify`, the event plumbing (`eventName`, `setListener`,
the shared `listener` dispatcher) and the `init` runtime loop.
-/

namespace SMVC

/-- A JavaScript property value.  Primitive values compare by value
(JS `!==` on primitives); functions are identified by reference,
modelled with a numeric identity. -/
inductive PropValue where
  | str (s : String)
  | num (n : Int)
  | bool (b : Bool)
  | handler (id : Nat)
deriving DecidableEq

/-- A virtual DOM node: either a text node or an element with a tag,
a property map (JS object: ordered entries, unique keys) and children. -/
inductive VNode where
  | text (content : String)
  | elem (tag : String) (properties : List (String × PropValue)) (children : List VNode)

/-- A diff between two virtual nodes, as produced by `diffOne` / `diffList`. -/
inductive Patch where
  | noop
  | replace (node : VNode)
  | create (node : VNode)
  | remove
  | modify (remove : List String) (set : List (String × PropValue)) (children : List Patch)

def Patch.isNoop : Patch → Bool
  | .noop => true
  | _ => false

/-- Lookup in a JS-object modelled as an ordered association list
(`obj[k]`, `undefined` becomes `none`). -/
def lookupProp (ps : List (String × PropValue)) (k : String) : Option PropValue :=
  (ps.find? (fun kv => kv.1 == k)).map (·.2)

/-- The `remove` array computed by `diffOne`: properties of the old node
absent from the new node. -/
def removedProps (l r : List (String × PropValue)) : List String :=
  (l.map Prod.fst).filter (fun p => (lookupProp r p).isNone)

/-- The `set` object computed by `diffOne`: entries of the new node whose
value differs from the old node (or are newly present). -/
def setProps (l r : List (String × PropValue)) : List (String × PropValue) :=
  r.filter (fun kv => decide (¬lookupProp l kv.1 = some kv.2))

mutual

/-- `diffOne(l, r)` from the post: text nodes compare by content, a tag
change is a whole-node replacement, otherwise a `modify` patch is built
from removed properties, set properties, and the children diff. -/
def diffOne : VNode → VNode → Patch
  | .text lt, .text rt => if lt = rt then .noop else .replace (.text rt)
  | .text _, .elem rt rp rc => .replace (.elem rt rp rc)
  | .elem _ _ _, .text rt => .replace (.text rt)
  | .elem lt lp lc, .elem rt rp rc =>
    if lt = rt then
      .modify (removedProps lp rp) (setProps lp rp) (diffList lc rc)
    else
      .replace (.elem rt rp rc)
termination_by l r => sizeOf l + sizeOf r

/-- `diffList(ls, rs)` from the post: positional diff of two child lists;
missing old children are created (only at the tail), missing new children
are removed. -/
def diffList : List VNode → List VNode → List Patch
  | [], [] => []
  | [], r :: rs => .create r :: diffList [] rs
  | _ :: ls, [] => .remove :: diffList ls []
  | l :: ls, r :: rs => diffOne l r :: diffList ls rs
termination_by ls rs => sizeOf ls + sizeOf rs

end

mutual

/-- Modelled from the spec: the diff with the collapse optimisation.  The
runnable library this repository ships (`assets/virtual-dom/smvc.js`,
loaded by the post and referenced by it for this very optimisation) is
not part of the source snapshot; per the spec, a `Modify` patch with
empty `removedProps`, empty `setProps` and all-`Noop` child patches
collapses to `Noop`.  Identical to `diffOne` otherwise. -/
def diffOneCollapsed : VNode → VNode → Patch
  | .text lt, .text rt => if lt = rt then .noop else .replace (.text rt)
  | .text _, .elem rt rp rc => .replace (.elem rt rp rc)
  | .elem _ _ _, .text rt => .replace (.text rt)
  | .elem lt lp lc, .elem rt rp rc =>
    if lt = rt then
      let rem := removedProps lp rp
      let set := setProps lp rp
      let children := diffListCollapsed lc rc
      if rem.isEmpty && set.isEmpty && children.all Patch.isNoop then .noop
      else .modify rem set children
    else
      .replace (.elem rt rp rc)
termination_by l r => sizeOf l + sizeOf r

/-- Modelled from the spec: child-list diff calling the collapsed
single-node diff; structure identical to `diffList`. -/
def diffListCollapsed : List VNode → List VNode → List Patch
  | [], [] => []
  | [], r :: rs => .create r :: diffListCollapsed [] rs
  | _ :: ls, [] => .remove :: diffListCollapsed ls []
  | l :: ls, r :: rs => diffOneCollapsed l r :: diffListCollapsed ls rs
termination_by ls rs => sizeOf ls + sizeOf rs

end

/-! ## The live DOM model

A live node is the mutable realization of a virtual node.  An element
carries two value stores (attributes, set via `setAttribute`, and direct
DOM properties, set via `el[prop] = v`), the `_ui.listeners` side-table,
the multiset of platform listener registrations made on it via
`addEventListener` (every registration uses the shared `listener`
dispatcher as callback), and its children. -/
inductive LiveNode where
  | text (content : String)
  | elem (tag : String) (attrs : List (String × PropValue))
      (props : List (String × PropValue))
      (listeners : List (String × PropValue))
      (registered : List String)
      (children : List LiveNode)

/-- Write a key in a key-value store (overwrites any previous entry). -/
def setStore (st : List (String × PropValue)) (k : String) (v : PropValue) :
    List (String × PropValue) :=
  st.filter (fun kv => !(kv.1 == k)) ++ [(k, v)]

/-- Delete a key from a key-value store. -/
def removeStore (st : List (String × PropValue)) (k : String) :
    List (String × PropValue) :=
  st.filter (fun kv => !(kv.1 == k))

/-- `str.indexOf("on") == 0`: the property name starts with the
characters `on`. -/
def startsWithOn (s : String) : Bool :=
  match s.data with
  | 'o' :: 'n' :: _ => true
  | _ => false

/-- `eventName(str)` from the post: a property name starting with `on`
denotes a listener for the lowercased remainder
(`str.slice(2).toLowerCase()`), otherwise `null`. -/
def eventName (s : String) : Option String :=
  match s.data with
  | 'o' :: 'n' :: rest => some (String.mk (rest.map Char.toLower))
  | _ => none

/-- The allow-list `props` from the post: property names set by direct
assignment (`el[prop] = value`) instead of `setAttribute`. -/
def props : List String :=
  ["autoplay", "checked", "checked", "contentEditable", "controls",
   "default", "hidden", "loop", "selected", "spellcheck", "value", "id", "title",
   "accessKey", "dir", "dropzone", "lang", "src", "alt", "preload", "poster",
   "kind", "label", "srclang", "sandbox", "srcdoc", "type", "value", "accept",
   "placeholder", "acceptCharset", "action", "autocomplete", "enctype", "method",
   "name", "pattern", "htmlFor", "max", "min", "step", "wrap", "useMap", "shape",
   "coords", "align", "cite", "href", "target", "download", "download",
   "hreflang", "ping", "start", "headers", "scope", "span"]

/-- `setProperty(prop, value, el)` from the post: allow-listed names are
set as direct properties, everything else through `setAttribute`. -/
def setProperty (prop : String) (value : PropValue) (el : LiveNode) : LiveNode :=
  match el with
  | .text s => .text s
  | .elem t a p l r c =>
    if props.contains prop then .elem t a (setStore p prop value) l r c
    else .elem t (setStore a prop value) p l r c

/-- `setListener(el, event, handle)` from the post: register the shared
dispatcher once per event name (only when the side-table has no entry),
then store the user handler in the side-table. -/
def setListener (el : LiveNode) (event : String) (handle : PropValue) : LiveNode :=
  match el with
  | .text s => .text s
  | .elem t a p l r c =>
    let r' := if (lookupProp l event).isNone then r ++ [event] else r
    .elem t a p (setStore l event handle) r' c

/-- `el.removeAttribute(prop)`: deletes the attribute; direct DOM
properties and listeners are untouched. -/
def removeAttributeEl (el : LiveNode) (prop : String) : LiveNode :=
  match el with
  | .text s => .text s
  | .elem t a p l r c => .elem t (removeStore a prop) p l r c

/-- The listener-removal branch of `modify`: clear the side-table entry
and call `el.removeEventListener(event, listener)` (which drops one
matching platform registration, or is a no-op if there is none). -/
def removeListenerEl (el : LiveNode) (event : String) : LiveNode :=
  match el with
  | .text s => .text s
  | .elem t a p l r c => .elem t a p (removeStore l event) (r.erase event) c

/-- One step of the property loop shared by `create` and the `set` loop
of `modify`: classify the name with `eventName` and dispatch to
`setListener` or `setProperty`. -/
def stepProp (el : LiveNode) (kv : String × PropValue) : LiveNode :=
  match eventName kv.1 with
  | some ev => setListener el ev kv.2
  | none => setProperty kv.1 kv.2 el

/-- One step of the removal loop of `modify`: plain names go through
`removeAttribute`, event names through the listener-removal branch. -/
def stepRemove (el : LiveNode) (prop : String) : LiveNode :=
  match eventName prop with
  | none => removeAttributeEl el prop
  | some ev => removeListenerEl el ev

/-- `create(vnode)` from the post: materialize a virtual node into a live
node — a fresh element with an empty listener side-table, every property
dispatched through the `eventName` classification, and recursively
created children. -/
def createLive : VNode → LiveNode
  | .text s => .text s
  | .elem tag ps cs =>
    let el1 := ps.foldl stepProp (.elem tag [] [] [] [] [])
    match el1 with
    | .text s => .text s
    | .elem t a p l r _ => .elem t a p l r (cs.attach.map (fun c => createLive c.1))
termination_by v => sizeOf v
decreasing_by
  simp_wf
  have := List.sizeOf_lt_of_mem c.2
  omega

/-- The nodes appended by the `create` patches of a patch run: in
`apply`, `case "create"` materializes the payload and calls
`el.appendChild`, so these end up, in patch order, after the children
that survive from the snapshot. -/
def appendedNodes (ps : List Patch) : List LiveNode :=
  ps.filterMap (fun p => match p with | .create n => some (createLive n) | _ => none)

mutual

/-- The effect of `apply(el, childrenDiff)` on the snapshotted original
children (`const children = Array.from(el.childNodes)`): patch `i` acts
on original child `i` — `remove` detaches it, `replace` substitutes a
freshly created node, `modify` updates it in place, and `noop`/`create`
leave it alone (`create` only appends, see `appendedNodes`).  A
`remove`/`replace`/`modify` patch at an index with no original child
dereferences `undefined` and faults (`none`). -/
def applyOrig : List LiveNode → List Patch → Option (List LiveNode)
  | cs, [] => some cs
  | [], p :: ps =>
    match p with
    | .noop => applyOrig [] ps
    | .create _ => applyOrig [] ps
    | _ => none
  | c :: cs, p :: ps =>
    match p with
    | .noop => (applyOrig cs ps).map (c :: ·)
    | .create _ => (applyOrig cs ps).map (c :: ·)
    | .remove => applyOrig cs ps
    | .replace n => (applyOrig cs ps).map (createLive n :: ·)
    | .modify rem set cps => do
      let c' ← modifyLive c rem set cps
      let rest ← applyOrig cs ps
      pure (c' :: rest)
termination_by _ ps => 2 * sizeOf ps

/-- `modify(el, diff)` from the post: run the removal loop, then the set
loop, then hand the children over to `apply`.  On a live text node any
attribute/listener operation or child mutation faults (text nodes have
no `setAttribute`/`_ui`/element children), which only happens for
patches a diff never produces against a matching tree. -/
def modifyLive (el : LiveNode) (rem : List String)
    (set : List (String × PropValue)) (cps : List Patch) : Option LiveNode :=
  let el2 := set.foldl stepProp (rem.foldl stepRemove el)
  match el2 with
  | .text s =>
    if rem.isEmpty && set.isEmpty && cps.all Patch.isNoop then some (.text s) else none
  | .elem t a p l r cc =>
    (applyOrig cc cps).map (fun cc' => .elem t a p l r (cc' ++ appendedNodes cps))
termination_by 2 * sizeOf cps + 1

end

/-- `apply(el, childrenDiff)` from the post, as a function from the
original child list to the new child list: surviving snapshot children
(in order) followed by the nodes appended by `create` patches. -/
def applyChildren (cs : List LiveNode) (ps : List Patch) : Option (List LiveNode) :=
  (applyOrig cs ps).map (· ++ appendedNodes ps)

/-! ## Observation -/

/-- The attributes store of a live node. -/
def attrsOf : LiveNode → List (String × PropValue)
  | .text _ => []
  | .elem _ a _ _ _ _ => a

/-- The direct-properties store of a live node. -/
def propsOf : LiveNode → List (String × PropValue)
  | .text _ => []
  | .elem _ _ p _ _ _ => p

/-- The `_ui.listeners` side-table of a live node. -/
def listenersOf : LiveNode → List (String × PropValue)
  | .text _ => []
  | .elem _ _ _ l _ _ => l

/-- The platform listener registrations of a live node. -/
def registeredOf : LiveNode → List String
  | .text _ => []
  | .elem _ _ _ _ r _ => r

/-- The children of a live node. -/
def childrenOf : LiveNode → List LiveNode
  | .text _ => []
  | .elem _ _ _ _ _ c => c

/-- Extensional equality of two key-value stores: the same lookup result
on every key of either store. -/
def storeEq (xs ys : List (String × PropValue)) : Bool :=
  xs.all (fun kv => decide (lookupProp ys kv.1 = lookupProp xs kv.1)) &&
  ys.all (fun kv => decide (lookupProp ys kv.1 = lookupProp xs kv.1))

mutual

/-- Observable identity of two live trees: same text content, same tags,
same attribute and direct-property values, and observably identical
children in the same order. -/
def obsEq : LiveNode → LiveNode → Bool
  | .text s, .text t => s == t
  | .elem t1 a1 p1 _ _ c1, .elem t2 a2 p2 _ _ c2 =>
    t1 == t2 && storeEq a1 a2 && storeEq p1 p2 && obsEqList c1 c2
  | _, _ => false
termination_by x y => sizeOf x + sizeOf y

/-- Pointwise observable identity of two lists of live trees. -/
def obsEqList : List LiveNode → List LiveNode → Bool
  | [], [] => true
  | x :: xs, y :: ys => obsEq x y && obsEqList xs ys
  | _, _ => false
termination_by xs ys => sizeOf xs + sizeOf ys

end

/-! ## Well-formedness and auxiliary measures -/

/-- A property map is well formed when its keys are distinct — automatic
for a JS object, whose keys cannot repeat. -/
def wfProps (ps : List (String × PropValue)) : Bool :=
  decide ((ps.map Prod.fst).Nodup)

/-- A virtual tree is well formed when every property map in it is. -/
def VNode.wfB : VNode → Bool
  | .text _ => true
  | .elem _ ps cs => wfProps ps && cs.attach.all (fun c => VNode.wfB c.1)
termination_by v => sizeOf v
decreasing_by
  simp_wf
  have := List.sizeOf_lt_of_mem c.2
  omega

mutual

/-- No property removal computed between the two trees (at any level
where `diffOne` would produce a `Modify`) names a non-event entry of the
direct-property allow-list. -/
def goodRemovals : VNode → VNode → Bool
  | .elem lt lp lc, .elem rt rp rc =>
    if lt = rt then
      (removedProps lp rp).all (fun p => !((eventName p).isNone && props.contains p)) &&
        goodRemovalsList lc rc
    else true
  | _, _ => true
termination_by l r => sizeOf l + sizeOf r

/-- Pairwise `goodRemovals` on the common prefix of two child lists. -/
def goodRemovalsList : List VNode → List VNode → Bool
  | l :: ls, r :: rs => goodRemovals l r && goodRemovalsList ls rs
  | _, _ => true
termination_by ls rs => sizeOf ls + sizeOf rs

end

/-- Total number of platform listener registrations in a live tree. -/
def regsTree : LiveNode → Nat
  | .text _ => 0
  | .elem _ _ _ _ r c => r.length + (c.attach.map (fun x => regsTree x.1)).sum
termination_by v => sizeOf v
decreasing_by
  simp_wf
  have := List.sizeOf_lt_of_mem x.2
  omega

/-- Total number of platform listener registrations in a forest. -/
def regsList (cs : List LiveNode) : Nat :=
  (cs.map regsTree).sum

/-- The original children destroyed by a patch run: those whose
positional patch is `remove` or `replace`. -/
def destroyedChildren : List LiveNode → List Patch → List LiveNode
  | _, [] => []
  | [], _ => []
  | c :: cs, p :: ps =>
    match p with
    | .remove => c :: destroyedChildren cs ps
    | .replace _ => c :: destroyedChildren cs ps
    | _ => destroyedChildren cs ps

/-- The fresh live nodes mounted by the `replace` patches of a run. -/
def replacementNodes (ps : List Patch) : List LiveNode :=
  ps.filterMap (fun p => match p with | .replace n => some (createLive n) | _ => none)

/-- No key of the attribute store, the direct-property store, or any
descendant's stores starts with `on` (such names are reserved for
listeners by `eventName`). -/
def noOnKeys : LiveNode → Bool
  | .text _ => true
  | .elem _ a p _ _ c =>
    a.all (fun kv => !(startsWithOn kv.1)) &&
    p.all (fun kv => !(startsWithOn kv.1)) &&
    c.attach.all (fun x => noOnKeys x.1)
termination_by v => sizeOf v
decreasing_by
  simp_wf
  have := List.sizeOf_lt_of_mem x.2
  omega

/-! ## Event dispatch -/

/-- The shared `listener(event)` dispatcher from the post, evaluated on a
live target and an event type.  `impls` gives the behaviour of each
user handler (by function identity): the message it returns, if any.
The result is `none` when the dispatch faults — which the code does by
calling `handler(event)` when the side-table entry is missing or not a
function — and otherwise the list of messages forwarded to `enqueue`. -/
def listener (impls : Nat → Option Nat) (el : LiveNode) (etype : String) :
    Option (List Nat) :=
  match lookupProp (listenersOf el) etype with
  | none => none
  | some (.handler id) =>
    some (match impls id with
          | none => []
          | some m => [m])
  | some _ => none

/-! ## The runtime loop -/

/-- The mutable fields owned by `init`: the application state, the
current virtual nodes (diff baseline) and the message queue. -/
structure LoopState (S M : Type) where
  state : S
  nodes : List VNode
  queue : List M

/-- What one `updateState` invocation did: how many times it called
`view`, how many diff/patch cycles it ran, and whether it rescheduled
itself via `requestAnimationFrame`. -/
structure TickTrace where
  viewCalls : Nat
  patchRuns : Nat
  rescheduled : Bool
deriving DecidableEq

/-- The drain loop of `updateState`: fold `update` over the captured
messages, collecting the messages enqueued reentrantly (via the
`enqueue` passed to `update`), which land on the fresh queue. -/
def drainFold (update : S → M → S × List M) (s : S) (msgs : List M) : S × List M :=
  msgs.foldl (fun acc m =>
    let r := update acc.1 m
    (r.1, acc.2 ++ r.2)) (s, [])

/-- The messages enqueued from within `update` during a drain, in
enqueue order. -/
def emittedDuringDrain (update : S → M → S × List M) : S → List M → List M
  | _, [] => []
  | s, m :: ms => (update s m).2 ++ emittedDuringDrain update (update s m).1 ms

/-- One `updateState` tick from the post: if the queue is non-empty,
swap it for an empty one, fold `update` over the captured messages, and
redraw (one `view` call, one diff/patch run); otherwise do nothing.
Either way, reschedule the next tick. -/
def tick (update : S → M → S × List M) (view : S → List VNode)
    (a : LoopState S M) : LoopState S M × TickTrace :=
  if a.queue.isEmpty then (a, ⟨0, 0, true⟩)
  else
    let r := drainFold update a.state a.queue
    ({ state := r.1, nodes := view r.1, queue := r.2 }, ⟨1, 1, true⟩)

/-- A sequence of `Modify` patches against the same live element, each
setting property `p` to the next handler value (empty removals, no child
patches), threaded through `modify`. -/
def modifySeq (p : String) (el : LiveNode) (hs : List PropValue) : Option LiveNode :=
  hs.foldl (fun acc h => acc.bind (fun e => modifyLive e [] [(p, h)] [])) (some el)

/-! ## Lemmas about the runtime loop -/

theorem drainFold_fst (update : S → M → S × List M) (ms : List M) :
    ∀ (s : S) (q : List M),
      (ms.foldl (fun acc m =>
        let r := update acc.1 m
        (r.1, acc.2 ++ r.2)) (s, q)).1 = ms.foldl (fun s m => (update s m).1) s := by
  induction ms with
  | nil => intro s q; rfl
  | cons m ms ih => intro s q; simpa using ih (update s m).1 (q ++ (update s m).2)

theorem drainFold_snd (update : S → M → S × List M) (ms : List M) :
    ∀ (s : S) (q : List M),
      (ms.foldl (fun acc m =>
        let r := update acc.1 m
        (r.1, acc.2 ++ r.2)) (s, q)).2 = q ++ emittedDuringDrain update s ms := by
  induction ms with
  | nil => intro s q; simp [emittedDuringDrain]
  | cons m ms ih =>
    intro s q
    simpa [emittedDuringDrain] using ih (update s m).1 (q ++ (update s m).2)

/-- C7.  On a tick with a non-empty queue, `updateState` performs exactly
one `view` call and one diff/patch run, with `update` folded
left-to-right over the captured messages; on an empty queue it performs
no work; in both cases it reschedules. -/
theorem tick_coalesced_scheduling (update : S → M → S × List M)
    (view : S → List VNode) (a : LoopState S M) :
    (a.queue ≠ [] →
      (tick update view a).2 = ⟨1, 1, true⟩ ∧
      (tick update view a).1.state = a.queue.foldl (fun s m => (update s m).1) a.state ∧
      (tick update view a).1.nodes = view ((tick update view a).1.state)) ∧
    (a.queue = [] → tick update view a = (a, ⟨0, 0, true⟩)) := by
  constructor
  · intro h
    have hq : a.queue.isEmpty = false := by
      cases hq : a.queue with
      | nil => exact absurd hq h
      | cons x xs => simp
    refine ⟨by simp [tick, hq], ?_, by simp [tick, hq]⟩
    simp [tick, hq, drainFold, drainFold_fst]
  · intro h
    simp [tick, h]

theorem tick_coalesced_scheduling_witness :
    ((⟨0, [], [1, 2, 3, 4, 5]⟩ : LoopState Nat Nat).queue ≠ [] ∧
      (tick (fun s m => (s + m, [])) (fun _ => []) ⟨0, [], [1, 2, 3, 4, 5]⟩).2 = ⟨1, 1, true⟩ ∧
      (tick (fun s m => (s + m, [])) (fun _ => []) ⟨0, [], [1, 2, 3, 4, 5]⟩).1.state = 15) ∧
    ((⟨7, [], []⟩ : LoopState Nat Nat).queue = [] ∧
      tick (fun s m => (s + m, [])) (fun _ => []) ⟨7, [], []⟩ = (⟨7, [], []⟩, ⟨0, 0, true⟩)) := by
  constructor
  · refine ⟨by simp, ?_, ?_⟩
    · exact ((tick_coalesced_scheduling (fun s m => (s + m, [])) (fun _ => [])
        ⟨0, [], [1, 2, 3, 4, 5]⟩).1 (by simp)).1
    · have h := ((tick_coalesced_scheduling (fun s m => (s + m, [])) (fun _ => [])
        ⟨0, [], [1, 2, 3, 4, 5]⟩).1 (by simp)).2.1
      simpa using h
  · exact ⟨rfl, (tick_coalesced_scheduling (fun s m => (s + m, [])) (fun _ => [])
      ⟨7, [], []⟩).2 rfl⟩

/-- C8.  Messages enqueued during a drain (including from within
`update`) are excluded from that tick's fold — the new state folds over
exactly the pre-tick queue, in enqueue order — and exactly those
reentrant messages form the queue awaiting the next tick. -/
theorem drain_defers_reentrant_enqueues (update : S → M → S × List M)
    (view : S → List VNode) (a : LoopState S M) (h : a.queue ≠ []) :
    (tick update view a).1.state = a.queue.foldl (fun s m => (update s m).1) a.state ∧
    (tick update view a).1.queue = emittedDuringDrain update a.state a.queue := by
  have hq : a.queue.isEmpty = false := by
    cases hq : a.queue with
    | nil => exact absurd hq h
    | cons x xs => simp
  constructor
  · simp [tick, hq, drainFold, drainFold_fst]
  · simp [tick, hq, drainFold, drainFold_snd]

theorem drain_defers_reentrant_enqueues_witness :
    ((⟨0, [], [10]⟩ : LoopState Nat Nat).queue ≠ [] ∧
      (tick (fun s m => (s + m, [s])) (fun _ => []) ⟨0, [], [10]⟩).1.state = 10 ∧
      (tick (fun s m => (s + m, [s])) (fun _ => []) ⟨0, [], [10]⟩).1.queue = [0]) := by
  have h := drain_defers_reentrant_enqueues (fun s m => (s + m, [s]))
    (fun _ => []) ⟨0, [], [10]⟩ (by simp)
  exact ⟨by simp, by simpa using h.1, by simpa [emittedDuringDrain] using h.2⟩

/-! ## The dispatcher on a missing handler -/

/-- C6 (the code's actual behaviour, at the claim's failing input): when
the platform fires an event whose type has no entry in the side-table,
the shared dispatcher evaluates `el._ui.listeners[event.type]` to
`undefined` and calls it, faulting (`none`) instead of performing the
no-op the spec requires. -/
theorem listener_missing_handler_faults :
    listener (fun _ => none) (.elem "div" [] [] [] [] []) "click" = none := rfl

/-! ## Association-list lemmas -/

theorem lookupProp_of_mem_nodup {ps : List (String × PropValue)}
    (h : (ps.map Prod.fst).Nodup) {kv : String × PropValue} (hkv : kv ∈ ps) :
    lookupProp ps kv.1 = some kv.2 := by
  induction ps with
  | nil => cases hkv
  | cons hd tl ih =>
    rcases List.mem_cons.mp hkv with rfl | hmem
    · simp [lookupProp]
    · have hne : hd.1 ≠ kv.1 := by
        intro he
        have : kv.1 ∈ tl.map Prod.fst := List.mem_map.mpr ⟨kv, hmem, rfl⟩
        simp only [List.map_cons, List.nodup_cons] at h
        exact h.1 (he ▸ this)
      have h' : (tl.map Prod.fst).Nodup := by
        simp only [List.map_cons, List.nodup_cons] at h
        exact h.2
      rw [lookupProp, List.find?_cons_of_neg _ (by simp [hne])]
      exact ih h' hmem

theorem lookupProp_isSome_of_key_mem {ps : List (String × PropValue)} {k : String}
    (h : k ∈ ps.map Prod.fst) : (lookupProp ps k).isSome = true := by
  rcases List.mem_map.mp h with ⟨kv, hkv, rfl⟩
  have : (ps.find? (fun kv' => kv'.1 == kv.1)).isSome = true := by
    rw [List.find?_isSome]
    exact ⟨kv, hkv, by simp⟩
  simp [lookupProp, Option.isSome_map', this]

theorem removedProps_self (ps : List (String × PropValue)) :
    removedProps ps ps = [] := by
  rw [removedProps, List.filter_eq_nil_iff]
  intro p hp
  have := lookupProp_isSome_of_key_mem hp
  simp [Option.isNone_iff_eq_none]
  exact Option.ne_none_iff_isSome.mpr this

theorem setProps_self {ps : List (String × PropValue)}
    (h : wfProps ps = true) : setProps ps ps = [] := by
  rw [setProps, List.filter_eq_nil_iff]
  intro kv hkv
  have hn : (ps.map Prod.fst).Nodup := by simpa [wfProps] using h
  simp [lookupProp_of_mem_nodup hn hkv]

/-! ## Diff identity (collapsed diff) -/

theorem wfB_elem_parts {t : String} {ps : List (String × PropValue)} {cs : List VNode}
    (hwf : (VNode.elem t ps cs).wfB = true) :
    wfProps ps = true ∧ ∀ c ∈ cs, VNode.wfB c = true := by
  rw [VNode.wfB] at hwf
  simp only [Bool.and_eq_true, List.all_eq_true] at hwf
  exact ⟨hwf.1, fun c hc => hwf.2 ⟨c, hc⟩ (List.mem_attach _ _)⟩

theorem diffOneCollapsed_self :
    ∀ t : VNode, t.wfB = true → diffOneCollapsed t t = .noop := by
  have main : ∀ l r : VNode, l = r → l.wfB = true → diffOneCollapsed l r = .noop := by
    apply diffOneCollapsed.induct
      (fun l r => l = r → l.wfB = true → diffOneCollapsed l r = .noop)
      (fun ls rs => ls = rs → (∀ c ∈ ls, VNode.wfB c = true) →
        (diffListCollapsed ls rs).all Patch.isNoop = true)
    · intro rt _ _; simp [diffOneCollapsed]
    · intro lt rt hne he _; injection he with h; exact absurd h hne
    · intro c rt rp rc he _; cases he
    · intro t p c rt he _; cases he
    · intro lp lc rt rp rc rem set children hcond ih he hwf
      simp [diffOneCollapsed, hcond]
    · intro lp lc rt rp rc rem set children hcond ih he hwf
      injection he with h1 h2 h3
      subst h2; subst h3
      obtain ⟨hwfp, hwfc⟩ := wfB_elem_parts hwf
      refine absurd ?_ hcond
      show ((removedProps lp lp).isEmpty && (setProps lp lp).isEmpty &&
        (diffListCollapsed lc lc).all Patch.isNoop) = true
      simp [removedProps_self, setProps_self hwfp, ih rfl hwfc]
    · intro lt lp lc rt rp rc hne he _; injection he with h1 _ _; exact absurd h1 hne
    · intro _ _; simp [diffListCollapsed]
    · intro r rs _ he _; cases he
    · intro hd ls _ he _; cases he
    · intro l ls r rs ih1 ih2 he hwf
      injection he with h1 h2
      subst h1; subst h2
      have hhd := ih1 rfl (hwf l (by simp))
      have htl := ih2 rfl (fun c hc => hwf c (List.mem_cons_of_mem _ hc))
      simp [diffListCollapsed, hhd, htl, Patch.isNoop]
  intro t ht
  exact main t t rfl ht

theorem diffListCollapsed_self :
    ∀ cs : List VNode, (∀ c ∈ cs, VNode.wfB c = true) →
      (diffListCollapsed cs cs).all Patch.isNoop = true := by
  intro cs h
  induction cs with
  | nil => simp [diffListCollapsed]
  | cons c cs ih =>
    have hhd := diffOneCollapsed_self c (h c (by simp))
    have htl := ih (fun x hx => h x (List.mem_cons_of_mem _ hx))
    simp [diffListCollapsed, hhd, htl, Patch.isNoop]

/-- C2.  Diff identity: on any well-formed tree (property maps are JS
objects, so their keys are distinct), diffing a tree against a
structurally equal one yields `Noop`, and the patch at every child
position of the recursion is likewise `Noop`. -/
theorem diff_identity (t : VNode) (cs : List VNode) (ht : t.wfB = true)
    (hcs : ∀ c ∈ cs, VNode.wfB c = true) :
    diffOneCollapsed t t = .noop ∧
    (diffListCollapsed cs cs).all Patch.isNoop = true :=
  ⟨diffOneCollapsed_self t ht, diffListCollapsed_self cs hcs⟩

theorem diff_identity_witness :
    (VNode.elem "div" [("id", .str "x"), ("onClick", .handler 0)]
        [.text "hello"]).wfB = true ∧
    diffOneCollapsed
      (.elem "div" [("id", .str "x"), ("onClick", .handler 0)] [.text "hello"])
      (.elem "div" [("id", .str "x"), ("onClick", .handler 0)] [.text "hello"]) = .noop ∧
    (diffListCollapsed [VNode.text "a", VNode.text "b"] [VNode.text "a", VNode.text "b"]).all
      Patch.isNoop = true := by
  have hw : (VNode.elem "div" [("id", .str "x"), ("onClick", .handler 0)]
      [.text "hello"]).wfB = true := by
    simp [VNode.wfB, wfProps]
  have h := diff_identity
    (.elem "div" [("id", .str "x"), ("onClick", .handler 0)] [.text "hello"])
    [VNode.text "a", VNode.text "b"] hw (by intro c hc; fin_cases hc <;> simp [VNode.wfB])
  exact ⟨hw, h.1, h.2⟩

/-- C3.  Collapse: whenever `diffOne` compares two same-tag elements and
computes no removed properties, no set properties and all-`Noop` child
patches, the resulting patch is `Noop` rather than `Modify`. -/
theorem modify_collapses_to_noop (tag : String)
    (lp rp : List (String × PropValue)) (lc rc : List VNode)
    (hrem : removedProps lp rp = []) (hset : setProps lp rp = [])
    (hch : (diffListCollapsed lc rc).all Patch.isNoop = true) :
    diffOneCollapsed (.elem tag lp lc) (.elem tag rp rc) = .noop := by
  simp [diffOneCollapsed, hrem, hset, hch]

theorem modify_collapses_to_noop_witness :
    removedProps [("id", PropValue.str "x")] [("id", PropValue.str "x")] = [] ∧
    setProps [("id", PropValue.str "x")] [("id", PropValue.str "x")] = [] ∧
    (diffListCollapsed [VNode.text "t"] [VNode.text "t"]).all Patch.isNoop = true ∧
    diffOneCollapsed (.elem "div" [("id", .str "x")] [.text "t"])
      (.elem "div" [("id", .str "x")] [.text "t"]) = .noop := by
  have h1 : removedProps [("id", PropValue.str "x")] [("id", PropValue.str "x")] = [] := by
    simp [removedProps, lookupProp]
  have h2 : setProps [("id", PropValue.str "x")] [("id", PropValue.str "x")] = [] := by
    simp [setProps, lookupProp]
  have h3 : (diffListCollapsed [VNode.text "t"] [VNode.text "t"]).all Patch.isNoop = true := by
    simp [diffListCollapsed, diffOneCollapsed, Patch.isNoop]
  exact ⟨h1, h2, h3, modify_collapses_to_noop "div" _ _ _ _ h1 h2 h3⟩

end SMVC

namespace SMVC

/-! ## Snapshot semantics of apply -/

theorem appendedNodes_eq_nil {ps : List Patch}
    (h : ∀ p ∈ ps, p = Patch.noop ∨ p = Patch.remove) : appendedNodes ps = [] := by
  rw [appendedNodes, List.filterMap_eq_nil_iff]
  intro p hp
  rcases h p hp with rfl | rfl <;> rfl

theorem applyOrig_nil_some :
    ∀ (ps : List Patch) (cs' : List LiveNode),
      applyOrig [] ps = some cs' → cs' = [] := by
  intro ps
  induction ps with
  | nil =>
    intro cs' h
    simp only [applyOrig] at h
    injection h with h
    exact h.symm
  | cons p ps ih =>
    intro cs' h
    cases p with
    | noop => simp only [applyOrig] at h; exact ih cs' h
    | create n => simp only [applyOrig] at h; exact ih cs' h
    | remove => simp [applyOrig] at h
    | replace n => simp [applyOrig] at h
    | modify a b c => simp [applyOrig] at h

theorem applyOrig_snapshot :
    ∀ (cs : List LiveNode) (ps : List Patch) (cs' : List LiveNode),
      applyOrig cs ps = some cs' →
      cs' = ((cs.zip ps).filterMap (fun cp =>
          match cp.2 with
          | Patch.remove => none
          | Patch.replace n => some (createLive n)
          | Patch.modify rem set cps => modifyLive cp.1 rem set cps
          | _ => some cp.1)) ++ cs.drop ps.length := by
  intro cs
  induction cs with
  | nil =>
    intro ps cs' h
    rw [applyOrig_nil_some ps cs' h]
    simp
  | cons c cs ih =>
    intro ps cs' h
    cases ps with
    | nil =>
      simp only [applyOrig] at h
      injection h with h
      simp [← h]
    | cons p ps =>
      cases p with
      | noop =>
        simp only [applyOrig] at h
        rcases Option.map_eq_some'.mp h with ⟨rest, hrest, rfl⟩
        rw [ih ps rest hrest]
        simp [List.zip_cons_cons, List.filterMap_cons]
      | create n =>
        simp only [applyOrig] at h
        rcases Option.map_eq_some'.mp h with ⟨rest, hrest, rfl⟩
        rw [ih ps rest hrest]
        simp [List.zip_cons_cons, List.filterMap_cons]
      | remove =>
        simp only [applyOrig] at h
        rw [ih ps cs' h]
        simp [List.zip_cons_cons, List.filterMap_cons]
      | replace n =>
        simp only [applyOrig] at h
        rcases Option.map_eq_some'.mp h with ⟨rest, hrest, rfl⟩
        rw [ih ps rest hrest]
        simp [List.zip_cons_cons, List.filterMap_cons]
      | modify rem set cps =>
        simp only [applyOrig, Option.bind_eq_bind] at h
        rcases Option.bind_eq_some.mp h with ⟨c2, hc2, h2⟩
        rcases Option.bind_eq_some.mp h2 with ⟨rest, hrest, heq⟩
        injection heq with heq
        rw [← heq, ih ps rest hrest]
        simp [List.zip_cons_cons, List.filterMap_cons, hc2]

theorem applyOrig_trailing_removes :
    ∀ (cs : List LiveNode) (m k : Nat), m + k = cs.length →
      applyOrig cs (List.replicate m Patch.noop ++ List.replicate k Patch.remove) =
        some (cs.take m) := by
  intro cs
  induction cs with
  | nil =>
    intro m k hmk
    simp only [List.length_nil] at hmk
    have hm : m = 0 := by omega
    have hk : k = 0 := by omega
    subst hm; subst hk
    simp [applyOrig]
  | cons c cs ih =>
    intro m k hmk
    cases m with
    | zero =>
      cases k with
      | zero => simp at hmk
      | succ k' =>
        have := ih 0 k' (by simp only [List.length_cons] at hmk; omega)
        simpa [applyOrig, List.replicate_succ] using this
    | succ m' =>
      have := ih m' k (by simp only [List.length_cons] at hmk; omega)
      simp [applyOrig, List.replicate_succ, this]

/-- C9.  `apply` snapshots the parent's child list into an array before
mutating, so every positional patch acts on the child that occupied that
index before the patch run started: whenever a patch run succeeds, the
result is exactly the pointwise outcome over the original children — the
originally-indexed child kept by `noop`/`create`, dropped by `remove`,
substituted by a freshly created tree by `replace`, or transformed in
place by `modify` — followed by the untouched trailing originals and the
nodes appended by `create` patches; in particular `remove` patches at
the `k` trailing positions remove exactly the original last `k` children
even though every removal shifts the live child list. -/
theorem apply_snapshot_semantics :
    (∀ (cs : List LiveNode) (ps : List Patch) (cs' : List LiveNode),
      applyChildren cs ps = some cs' →
      cs' = (((cs.zip ps).filterMap (fun cp =>
          match cp.2 with
          | Patch.remove => none
          | Patch.replace n => some (createLive n)
          | Patch.modify rem set cps => modifyLive cp.1 rem set cps
          | _ => some cp.1)) ++ cs.drop ps.length) ++ appendedNodes ps) ∧
    (∀ (cs : List LiveNode) (k : Nat), k ≤ cs.length →
      applyChildren cs (List.replicate (cs.length - k) Patch.noop ++
          List.replicate k Patch.remove) =
        some (cs.take (cs.length - k))) := by
  constructor
  · intro cs ps cs' h
    rw [applyChildren] at h
    rcases Option.map_eq_some'.mp h with ⟨orig, horig, rfl⟩
    rw [applyOrig_snapshot cs ps orig horig]
  · intro cs k hk
    have hrep : ∀ p ∈ (List.replicate (cs.length - k) Patch.noop ++
        List.replicate k Patch.remove), p = Patch.noop ∨ p = Patch.remove := by
      intro p hp
      rcases List.mem_append.mp hp with h | h
      · exact Or.inl (List.eq_of_mem_replicate h)
      · exact Or.inr (List.eq_of_mem_replicate h)
    rw [applyChildren, applyOrig_trailing_removes cs (cs.length - k) k (by omega),
      appendedNodes_eq_nil hrep]
    simp

theorem apply_snapshot_semantics_witness :
    (applyChildren
        [LiveNode.elem "div" [] [] [] [] [], LiveNode.text "B", LiveNode.text "C"]
        [Patch.modify [] [("id", PropValue.str "v")] [],
         Patch.replace (VNode.text "R"), Patch.remove] =
      some [LiveNode.elem "div" [] [("id", PropValue.str "v")] [] [] [],
        LiveNode.text "R"] ∧
     [LiveNode.elem "div" [] [("id", PropValue.str "v")] [] [] [],
        LiveNode.text "R"] =
       ((([LiveNode.elem "div" [] [] [] [] [], LiveNode.text "B",
            LiveNode.text "C"].zip
          [Patch.modify [] [("id", PropValue.str "v")] [],
           Patch.replace (VNode.text "R"), Patch.remove]).filterMap (fun cp =>
          match cp.2 with
          | Patch.remove => none
          | Patch.replace n => some (createLive n)
          | Patch.modify rem set cps => modifyLive cp.1 rem set cps
          | _ => some cp.1)) ++
        ([LiveNode.elem "div" [] [] [] [] [], LiveNode.text "B",
          LiveNode.text "C"].drop
          [Patch.modify [] [("id", PropValue.str "v")] [],
           Patch.replace (VNode.text "R"), Patch.remove].length)) ++
       appendedNodes [Patch.modify [] [("id", PropValue.str "v")] [],
         Patch.replace (VNode.text "R"), Patch.remove]) ∧
    (2 ≤ ([LiveNode.text "A", LiveNode.text "B", LiveNode.text "C"]).length ∧
     applyChildren [LiveNode.text "A", LiveNode.text "B", LiveNode.text "C"]
        (List.replicate 1 Patch.noop ++ List.replicate 2 Patch.remove) =
      some [LiveNode.text "A"]) := by
  have he : eventName "id" = none := by decide
  have hmem : "id" ∈ props := by decide
  have hm : modifyLive (.elem "div" [] [] [] [] []) [] [("id", .str "v")] [] =
      some (.elem "div" [] [("id", PropValue.str "v")] [] [] []) := by
    rw [modifyLive]
    simp [stepProp, he, setProperty, hmem, setStore, applyOrig, appendedNodes]
  have happ : applyChildren
      [LiveNode.elem "div" [] [] [] [] [], LiveNode.text "B", LiveNode.text "C"]
      [Patch.modify [] [("id", PropValue.str "v")] [],
       Patch.replace (VNode.text "R"), Patch.remove] =
      some [LiveNode.elem "div" [] [("id", PropValue.str "v")] [] [] [],
        LiveNode.text "R"] := by
    rw [applyChildren]
    simp [applyOrig, hm, createLive, appendedNodes]
  refine ⟨⟨happ, apply_snapshot_semantics.1 _ _ _ happ⟩, by simp, ?_⟩
  have h2 := apply_snapshot_semantics.2
    [LiveNode.text "A", LiveNode.text "B", LiveNode.text "C"] 2 (by simp)
  simpa using h2

end SMVC

namespace SMVC

/-! ## Structural induction helpers for the nested inductives -/

theorem vnodeStrongInduction (P : VNode → Prop)
    (htext : ∀ s, P (.text s))
    (helem : ∀ t ps cs, (∀ c ∈ cs, P c) → P (.elem t ps cs)) : ∀ v, P v := by
  suffices h : ∀ n (v : VNode), sizeOf v < n → P v from
    fun v => h (sizeOf v + 1) v (by omega)
  intro n
  induction n with
  | zero => intro v h; omega
  | succ n ih =>
    intro v h
    cases v with
    | text s => exact htext s
    | elem t ps cs =>
      refine helem t ps cs (fun c hc => ih c ?_)
      have h1 := List.sizeOf_lt_of_mem hc
      have h2 : sizeOf (VNode.elem t ps cs) = 1 + sizeOf t + sizeOf ps + sizeOf cs := by
        simp
      omega

theorem livenodeStrongInduction (P : LiveNode → Prop)
    (htext : ∀ s, P (.text s))
    (helem : ∀ t a p l r c, (∀ x ∈ c, P x) → P (.elem t a p l r c)) : ∀ v, P v := by
  suffices h : ∀ n (v : LiveNode), sizeOf v < n → P v from
    fun v => h (sizeOf v + 1) v (by omega)
  intro n
  induction n with
  | zero => intro v h; omega
  | succ n ih =>
    intro v h
    cases v with
    | text s => exact htext s
    | elem t a p l r c =>
      refine helem t a p l r c (fun x hx => ih x ?_)
      have h1 := List.sizeOf_lt_of_mem hx
      have h2 : sizeOf (LiveNode.elem t a p l r c) =
          1 + sizeOf t + sizeOf a + sizeOf p + sizeOf l + sizeOf r + sizeOf c := by
        simp
      omega

theorem all_attach {α : Type} (l : List α) (p : α → Bool) :
    (l.attach.all fun x => p x.1) = l.all p := by
  rw [Bool.eq_iff_iff]
  simp only [List.all_eq_true, List.mem_attach, true_implies, Subtype.forall]

theorem map_attach {α β : Type} (l : List α) (f : α → β) :
    (l.attach.map fun x => f x.1) = l.map f := by
  induction l with
  | nil => rfl
  | cons x xs ih =>
    simp only [List.attach, List.attachWith, List.map_cons, List.map_pmap, List.pmap_map] at *
    simp [ih]

/-! ## The `on` prefix classification -/

theorem startsWithOn_true_iff (s : String) :
    startsWithOn s = true ↔ ∃ rest, s.data = 'o' :: 'n' :: rest := by
  unfold startsWithOn
  split
  · next rest heq => exact iff_of_true rfl ⟨rest, heq⟩
  · next hno =>
    constructor
    · intro h; cases h
    · rintro ⟨rest, hr⟩; exact absurd hr (hno rest)

theorem eventName_of_data {s : String} {rest : List Char}
    (h : s.data = 'o' :: 'n' :: rest) :
    eventName s = some (String.mk (rest.map Char.toLower)) := by
  unfold eventName
  rw [h]
  split
  · next rest' heq =>
    injection heq with h1 h2
    injection h2 with h3 h4
    rw [h4]
  · next hno => exact absurd rfl (hno rest)

theorem eventName_none_of_not_on {s : String} (h : startsWithOn s = false) :
    eventName s = none := by
  unfold eventName
  split
  · next rest heq =>
    rw [(startsWithOn_true_iff s).mpr ⟨rest, heq⟩] at h
    cases h
  · rfl

theorem startsWithOn_of_eventName_some {s : String} {e : String}
    (h : eventName s = some e) : startsWithOn s = true := by
  cases hs : startsWithOn s
  · rw [eventName_none_of_not_on hs] at h; cases h
  · rfl

/-! ## Shapes preserved by the property loops -/

theorem stepProp_elem_shape (t : String) (a p l : List (String × PropValue))
    (rg : List String) (c : List LiveNode) (kv : String × PropValue) :
    ∃ a' p' l' rg', stepProp (.elem t a p l rg c) kv = .elem t a' p' l' rg' c := by
  cases h : eventName kv.1 with
  | none =>
    by_cases hp : kv.1 ∈ props
    · exact ⟨a, setStore p kv.1 kv.2, l, rg, by simp [stepProp, h, setProperty, hp]⟩
    · exact ⟨setStore a kv.1 kv.2, p, l, rg, by simp [stepProp, h, setProperty, hp]⟩
  | some ev =>
    exact ⟨a, p, setStore l ev kv.2,
      if (lookupProp l ev).isNone then rg ++ [ev] else rg,
      by simp [stepProp, h, setListener]⟩

theorem stepRemove_elem_shape (t : String) (a p l : List (String × PropValue))
    (rg : List String) (c : List LiveNode) (prop : String) :
    ∃ a' l' rg', stepRemove (.elem t a p l rg c) prop = .elem t a' p l' rg' c := by
  cases h : eventName prop with
  | none => exact ⟨removeStore a prop, l, rg, by simp [stepRemove, h, removeAttributeEl]⟩
  | some ev =>
    exact ⟨a, removeStore l ev, rg.erase ev, by simp [stepRemove, h, removeListenerEl]⟩

theorem foldl_stepProp_shape (ps : List (String × PropValue)) :
    ∀ (t : String) (a p l : List (String × PropValue)) (rg : List String)
      (c : List LiveNode),
      ∃ a' p' l' rg',
        ps.foldl stepProp (.elem t a p l rg c) = .elem t a' p' l' rg' c := by
  induction ps with
  | nil => intro t a p l rg c; exact ⟨a, p, l, rg, rfl⟩
  | cons kv ps ih =>
    intro t a p l rg c
    obtain ⟨a1, p1, l1, rg1, h1⟩ := stepProp_elem_shape t a p l rg c kv
    obtain ⟨a', p', l', rg', h'⟩ := ih t a1 p1 l1 rg1 c
    exact ⟨a', p', l', rg', by rw [List.foldl_cons, h1, h']⟩

theorem foldl_stepRemove_shape (rem : List String) :
    ∀ (t : String) (a p l : List (String × PropValue)) (rg : List String)
      (c : List LiveNode),
      ∃ a' l' rg',
        rem.foldl stepRemove (.elem t a p l rg c) = .elem t a' p l' rg' c := by
  induction rem with
  | nil => intro t a p l rg c; exact ⟨a, l, rg, rfl⟩
  | cons prop rem ih =>
    intro t a p l rg c
    obtain ⟨a1, l1, rg1, h1⟩ := stepRemove_elem_shape t a p l rg c prop
    obtain ⟨a', l', rg', h'⟩ := ih t a1 p l1 rg1 c
    exact ⟨a', l', rg', by rw [List.foldl_cons, h1, h']⟩

end SMVC

namespace SMVC

/-! ## No `on`-prefixed key ever reaches the attribute/property stores -/

theorem startsWithOn_false_of_eventName_none {s : String}
    (h : eventName s = none) : startsWithOn s = false := by
  cases hs : startsWithOn s
  · rfl
  · obtain ⟨rest, hr⟩ := (startsWithOn_true_iff s).mp hs
    rw [eventName_of_data hr] at h
    cases h

theorem noOnKeys_elem (t : String) (a p l : List (String × PropValue))
    (r : List String) (c : List LiveNode) :
    noOnKeys (.elem t a p l r c) =
      (a.all (fun kv => !(startsWithOn kv.1)) &&
       p.all (fun kv => !(startsWithOn kv.1)) && c.all noOnKeys) := by
  simp only [noOnKeys]
  rw [all_attach]

theorem all_setStore {st : List (String × PropValue)} {q : String × PropValue → Bool}
    {k : String} {v : PropValue}
    (h : st.all q = true) (hk : q (k, v) = true) : (setStore st k v).all q = true := by
  rw [setStore, List.all_append, Bool.and_eq_true]
  constructor
  · simp only [List.all_eq_true] at h ⊢
    exact fun x hx => h x (List.mem_of_mem_filter hx)
  · simpa using hk

theorem all_removeStore {st : List (String × PropValue)} {q : String × PropValue → Bool}
    {k : String} (h : st.all q = true) : (removeStore st k).all q = true := by
  rw [removeStore]
  simp only [List.all_eq_true] at h ⊢
  intro x hx
  exact h x (List.mem_of_mem_filter hx)

theorem stepProp_noOn {el : LiveNode} {kv : String × PropValue}
    (h : noOnKeys el = true) : noOnKeys (stepProp el kv) = true := by
  cases el with
  | text s =>
    cases he : eventName kv.1 <;>
      simp [stepProp, he, setListener, setProperty, noOnKeys]
  | elem t a p l r c =>
    rw [noOnKeys_elem] at h
    simp only [Bool.and_eq_true] at h
    obtain ⟨⟨ha, hp⟩, hc⟩ := h
    cases he : eventName kv.1 with
    | some ev =>
      simp only [stepProp, he, setListener]
      rw [noOnKeys_elem]
      simp [ha, hp, hc]
    | none =>
      have hon : startsWithOn kv.1 = false := startsWithOn_false_of_eventName_none he
      simp only [stepProp, he, setProperty]
      split
      · rw [noOnKeys_elem]
        simp only [Bool.and_eq_true]
        exact ⟨⟨ha, all_setStore (q := fun kv => !startsWithOn kv.1) hp (by simp [hon])⟩, hc⟩
      · rw [noOnKeys_elem]
        simp only [Bool.and_eq_true]
        exact ⟨⟨all_setStore (q := fun kv => !startsWithOn kv.1) ha (by simp [hon]), hp⟩, hc⟩

theorem stepRemove_noOn {el : LiveNode} {prop : String}
    (h : noOnKeys el = true) : noOnKeys (stepRemove el prop) = true := by
  cases el with
  | text s =>
    cases he : eventName prop <;>
      simp [stepRemove, he, removeAttributeEl, removeListenerEl, noOnKeys]
  | elem t a p l r c =>
    rw [noOnKeys_elem] at h
    simp only [Bool.and_eq_true] at h
    obtain ⟨⟨ha, hp⟩, hc⟩ := h
    cases he : eventName prop with
    | some ev =>
      simp only [stepRemove, he, removeListenerEl]
      rw [noOnKeys_elem]
      simp [ha, hp, hc]
    | none =>
      simp only [stepRemove, he, removeAttributeEl]
      rw [noOnKeys_elem]
      simp [hp, hc, all_removeStore ha]

theorem foldl_stepProp_noOn {el : LiveNode} (ps : List (String × PropValue))
    (h : noOnKeys el = true) : noOnKeys (ps.foldl stepProp el) = true := by
  induction ps generalizing el with
  | nil => exact h
  | cons kv ps ih => exact ih (stepProp_noOn h)

theorem foldl_stepRemove_noOn {el : LiveNode} (rem : List String)
    (h : noOnKeys el = true) : noOnKeys (rem.foldl stepRemove el) = true := by
  induction rem generalizing el with
  | nil => exact h
  | cons prop rem ih => exact ih (stepRemove_noOn h)

theorem createLive_noOn : ∀ v : VNode, noOnKeys (createLive v) = true := by
  apply vnodeStrongInduction
  · intro s; simp [createLive, noOnKeys]
  · intro t ps cs ih
    obtain ⟨a', p', l', rg', hshape⟩ :=
      foldl_stepProp_shape ps t [] [] [] [] []
    have hfold : noOnKeys (ps.foldl stepProp (.elem t [] [] [] [] [])) = true :=
      foldl_stepProp_noOn ps (by rw [noOnKeys_elem]; simp)
    rw [hshape] at hfold
    rw [noOnKeys_elem] at hfold
    simp only [Bool.and_eq_true] at hfold
    simp only [createLive, hshape]
    rw [noOnKeys_elem]
    simp only [Bool.and_eq_true]
    refine ⟨⟨hfold.1.1, hfold.1.2⟩, ?_⟩
    rw [map_attach]
    simp only [List.all_eq_true]
    intro x hx
    rcases List.mem_map.mp hx with ⟨v, hv, rfl⟩
    exact ih v hv

end SMVC

namespace SMVC

theorem appendedNodes_noOn (ps : List Patch) :
    (appendedNodes ps).all noOnKeys = true := by
  rw [appendedNodes]
  simp only [List.all_eq_true]
  intro x hx
  rcases List.mem_filterMap.mp hx with ⟨p, _, hsome⟩
  cases p with
  | noop => cases hsome
  | replace n => cases hsome
  | create n =>
    simp only at hsome
    injection hsome with h
    rw [← h]
    exact createLive_noOn _
  | remove => cases hsome
  | modify a b c => cases hsome

theorem applyOrig_noOn :
    ∀ (cs : List LiveNode) (ps : List Patch),
      ∀ cs', cs.all noOnKeys = true → applyOrig cs ps = some cs' →
        cs'.all noOnKeys = true := by
  apply applyOrig.induct
    (fun cs ps => ∀ cs', cs.all noOnKeys = true →
      applyOrig cs ps = some cs' → cs'.all noOnKeys = true)
    (fun el rem set cps => ∀ el', noOnKeys el = true →
      modifyLive el rem set cps = some el' → noOnKeys el' = true)
  · intro cs cs' h happ
    simp only [applyOrig] at happ
    injection happ with h2
    rw [← h2]; exact h
  · intro ps ih cs' h happ
    simp only [applyOrig] at happ
    exact ih cs' h happ
  · intro ps node ih cs' h happ
    simp only [applyOrig] at happ
    exact ih cs' h happ
  · intro p ps hnp hnc cs' h happ
    cases p with
    | noop => exact absurd rfl hnp
    | create n => exact absurd rfl (hnc n)
    | replace n => simp [applyOrig] at happ
    | remove => simp [applyOrig] at happ
    | modify a b c => simp [applyOrig] at happ
  · intro c cs ps ih cs' h happ
    simp only [applyOrig] at happ
    rcases Option.map_eq_some'.mp happ with ⟨rest, hrest, rfl⟩
    simp only [List.all_cons, Bool.and_eq_true] at h ⊢
    exact ⟨h.1, ih rest h.2 hrest⟩
  · intro c cs ps node ih cs' h happ
    simp only [applyOrig] at happ
    rcases Option.map_eq_some'.mp happ with ⟨rest, hrest, rfl⟩
    simp only [List.all_cons, Bool.and_eq_true] at h ⊢
    exact ⟨h.1, ih rest h.2 hrest⟩
  · intro c cs ps ih cs' h happ
    simp only [applyOrig] at happ
    simp only [List.all_cons, Bool.and_eq_true] at h
    exact ih cs' h.2 happ
  · intro c cs ps n ih cs' h happ
    simp only [applyOrig] at happ
    rcases Option.map_eq_some'.mp happ with ⟨rest, hrest, rfl⟩
    simp only [List.all_cons, Bool.and_eq_true] at h ⊢
    exact ⟨createLive_noOn n, ih rest h.2 hrest⟩
  · intro c cs ps rem set cps ihm ih cs' h happ
    simp only [applyOrig, Option.bind_eq_bind] at happ
    rcases Option.bind_eq_some.mp happ with ⟨c', hc', happ2⟩
    rcases Option.bind_eq_some.mp happ2 with ⟨rest, hrest, heq⟩
    injection heq with heq2
    simp only [List.all_cons, Bool.and_eq_true] at h
    rw [← heq2]
    simp only [List.all_cons, Bool.and_eq_true]
    exact ⟨ihm c' h.1 hc', ih rest h.2 hrest⟩
  · intro el rem set cps el2 s heq hcond el' h happ
    have heq' : List.foldl stepProp (List.foldl stepRemove el rem) set =
        LiveNode.text s := heq
    rw [modifyLive] at happ
    rw [heq'] at happ
    have happ2 : (if (rem.isEmpty && set.isEmpty && cps.all Patch.isNoop) = true
        then some (LiveNode.text s) else none) = some el' := happ
    rw [if_pos hcond] at happ2
    injection happ2 with h2
    rw [← h2]
    simp [noOnKeys]
  · intro el rem set cps el2 s heq hcond el' h happ
    have heq' : List.foldl stepProp (List.foldl stepRemove el rem) set =
        LiveNode.text s := heq
    rw [modifyLive] at happ
    rw [heq'] at happ
    have happ2 : (if (rem.isEmpty && set.isEmpty && cps.all Patch.isNoop) = true
        then some (LiveNode.text s) else none) = some el' := happ
    rw [if_neg hcond] at happ2
    cases happ2
  · intro el rem set cps el2 t a p l r c heq ih el' h happ
    have heq' : List.foldl stepProp (List.foldl stepRemove el rem) set =
        LiveNode.elem t a p l r c := heq
    have hel2 : noOnKeys (List.foldl stepProp (List.foldl stepRemove el rem) set) = true :=
      foldl_stepProp_noOn set (foldl_stepRemove_noOn rem h)
    rw [heq'] at hel2
    rw [noOnKeys_elem] at hel2
    simp only [Bool.and_eq_true] at hel2
    rw [modifyLive] at happ
    rw [heq'] at happ
    have happ2 : Option.map (fun cc' => LiveNode.elem t a p l r (cc' ++ appendedNodes cps))
        (applyOrig c cps) = some el' := happ
    rcases Option.map_eq_some'.mp happ2 with ⟨cc', hcc', rfl⟩
    rw [noOnKeys_elem]
    simp only [Bool.and_eq_true]
    refine ⟨⟨hel2.1.1, hel2.1.2⟩, ?_⟩
    rw [List.all_append, Bool.and_eq_true]
    exact ⟨ih cc' hel2.2 hcc', appendedNodes_noOn cps⟩

theorem lookupProp_none_of_all_not {st : List (String × PropValue)} {s : String}
    {q : String × PropValue → Bool}
    (h : st.all q = true) (hs : q = (fun kv => !(startsWithOn kv.1)))
    (hson : startsWithOn s = true) : lookupProp st s = none := by
  subst hs
  cases hfind : st.find? (fun kv => kv.1 == s) with
  | none => simp [lookupProp, hfind]
  | some kv =>
    have hmem := List.mem_of_find?_eq_some hfind
    have hpred := List.find?_some hfind
    simp only [beq_iff_eq] at hpred
    simp only [List.all_eq_true] at h
    have := h kv hmem
    rw [hpred, hson] at this
    cases this

theorem noOn_lookups_none {el : LiveNode} {s : String}
    (h : noOnKeys el = true) (hson : startsWithOn s = true) :
    lookupProp (attrsOf el) s = none ∧ lookupProp (propsOf el) s = none := by
  cases el with
  | text c => simp [attrsOf, propsOf, lookupProp]
  | elem t a p l r c =>
    rw [noOnKeys_elem] at h
    simp only [Bool.and_eq_true] at h
    exact ⟨lookupProp_none_of_all_not h.1.1 rfl hson,
      lookupProp_none_of_all_not h.1.2 rfl hson⟩

/-- C10.  Every property name beginning with the characters `on` is
classified by `eventName` as an event listener whose platform event is
the lowercased remainder (possibly empty, for the name `on` itself);
consequently no tree built by `create` and maintained by `apply`/`modify`
ever carries an `on`-prefixed key in its attribute store or its
direct-property store, at any depth. -/
theorem on_prefix_always_listener (s : String) (rest : List Char) (v : VNode)
    (cs cs' : List LiveNode) (ps : List Patch)
    (hs : s.data = 'o' :: 'n' :: rest)
    (hcs : cs.all noOnKeys = true) (happ : applyChildren cs ps = some cs') :
    eventName s = some (String.mk (rest.map Char.toLower)) ∧
    noOnKeys (createLive v) = true ∧
    lookupProp (attrsOf (createLive v)) s = none ∧
    lookupProp (propsOf (createLive v)) s = none ∧
    cs'.all noOnKeys = true := by
  have hson : startsWithOn s = true := (startsWithOn_true_iff s).mpr ⟨rest, hs⟩
  have hcv := createLive_noOn v
  have hlk := noOn_lookups_none hcv hson
  refine ⟨eventName_of_data hs, hcv, hlk.1, hlk.2, ?_⟩
  rw [applyChildren] at happ
  rcases Option.map_eq_some'.mp happ with ⟨orig, horig, rfl⟩
  rw [List.all_append, Bool.and_eq_true]
  exact ⟨applyOrig_noOn cs ps orig hcs horig, appendedNodes_noOn ps⟩

theorem on_prefix_always_listener_witness :
    ("onClick".data = 'o' :: 'n' :: ['C', 'l', 'i', 'c', 'k'] ∧
      ([] : List LiveNode).all noOnKeys = true ∧
      applyChildren [] [] = some []) ∧
    eventName "onClick" = some "click" ∧
    noOnKeys (createLive (.elem "a" [("onClick", .handler 0), ("href", .str "x")] [])) =
      true ∧
    lookupProp (attrsOf (createLive
      (.elem "a" [("onClick", .handler 0), ("href", .str "x")] []))) "onClick" = none ∧
    lookupProp (propsOf (createLive
      (.elem "a" [("onClick", .handler 0), ("href", .str "x")] []))) "onClick" = none := by
  have happ : applyChildren ([] : List LiveNode) [] = some [] := by
    simp [applyChildren, applyOrig, appendedNodes]
  have h := on_prefix_always_listener "onClick" ['C', 'l', 'i', 'c', 'k']
    (.elem "a" [("onClick", .handler 0), ("href", .str "x")] [])
    [] [] [] rfl rfl happ
  refine ⟨⟨rfl, rfl, happ⟩, ?_, h.2.1, h.2.2.1, h.2.2.2.1⟩
  have := h.1
  simpa using this

end SMVC

namespace SMVC

/-! ## Store lookup lemmas -/

theorem find?_filter_ne (st : List (String × PropValue)) (k k' : String) (h : k' ≠ k) :
    (st.filter (fun kv => !(kv.1 == k))).find? (fun kv => kv.1 == k') =
      st.find? (fun kv => kv.1 == k') := by
  induction st with
  | nil => rfl
  | cons hd tl ih =>
    by_cases hhd : hd.1 = k
    · rw [List.filter_cons_of_neg (by simp [hhd])]
      rw [List.find?_cons_of_neg _ (by simp [hhd]; exact fun he => h he.symm)]
      exact ih
    · rw [List.filter_cons_of_pos (by simp [hhd])]
      by_cases hk' : hd.1 = k'
      · rw [List.find?_cons_of_pos _ (by simp [hk']),
          List.find?_cons_of_pos _ (by simp [hk'])]
      · rw [List.find?_cons_of_neg _ (by simp [hk']),
          List.find?_cons_of_neg _ (by simp [hk'])]
        exact ih

theorem lookupProp_setStore (st : List (String × PropValue)) (k : String)
    (v : PropValue) (k' : String) :
    lookupProp (setStore st k v) k' = if k' = k then some v else lookupProp st k' := by
  rw [setStore, lookupProp, List.find?_append]
  by_cases h : k' = k
  · subst h
    have hleft : (st.filter (fun kv => !(kv.1 == k'))).find?
        (fun kv => kv.1 == k') = none := by
      rw [List.find?_eq_none]
      intro kv hkv
      have := List.of_mem_filter hkv
      simpa using this
    simp [hleft, List.find?]
  · have hright : (([(k, v)] : List (String × PropValue)).find?
        (fun kv => kv.1 == k')) = none := by
      rw [List.find?_eq_none]
      intro kv hkv
      rw [List.mem_singleton] at hkv
      subst hkv
      simpa using fun he => h he.symm
    rw [find?_filter_ne st k k' h]
    rw [if_neg h, lookupProp]
    cases hf : st.find? (fun kv => kv.1 == k') <;> simp [hf, hright]

theorem lookupProp_removeStore (st : List (String × PropValue)) (k k' : String) :
    lookupProp (removeStore st k) k' = if k' = k then none else lookupProp st k' := by
  rw [removeStore, lookupProp]
  by_cases h : k' = k
  · subst h
    have hleft : (st.filter (fun kv => !(kv.1 == k'))).find?
        (fun kv => kv.1 == k') = none := by
      rw [List.find?_eq_none]
      intro kv hkv
      have := List.of_mem_filter hkv
      simpa using this
    simp [hleft]
  · rw [find?_filter_ne st k k' h, if_neg h, lookupProp]

/-! ## Listener single-registration -/

theorem modifyLive_elem_noChildPatches (t : String)
    (a p l : List (String × PropValue)) (r : List String) (c : List LiveNode)
    (rem : List String) (set : List (String × PropValue)) :
    modifyLive (.elem t a p l r c) rem set [] =
      some (set.foldl stepProp (rem.foldl stepRemove (.elem t a p l r c))) := by
  obtain ⟨a1, l1, rg1, h1⟩ := foldl_stepRemove_shape rem t a p l r c
  obtain ⟨a2, p2, l2, rg2, h2⟩ := foldl_stepProp_shape set t a1 p l1 rg1 c
  rw [modifyLive, h1, h2]
  simp [applyOrig, appendedNodes]

theorem modifySeq_cons (p : String) (el : LiveNode) (h : PropValue)
    (hs : List PropValue) (t : String) (a pr l : List (String × PropValue))
    (r : List String) (c : List LiveNode) (hel : el = .elem t a pr l r c) :
    modifySeq p el (h :: hs) = modifySeq p (stepProp el (p, h)) hs := by
  subst hel
  rw [modifySeq, List.foldl_cons, Option.some_bind, modifyLive_elem_noChildPatches]
  rw [modifySeq]
  rfl

theorem stepProp_event (el : LiveNode) (p e : String) (h : PropValue)
    (he : eventName p = some e) : stepProp el (p, h) = setListener el e h := by
  simp [stepProp, he]

theorem modifySeq_established (p e : String) (he : eventName p = some e) :
    ∀ (hs : List PropValue) (t : String) (a pr l : List (String × PropValue))
      (r : List String) (c : List LiveNode),
      (lookupProp l e).isSome = true → r.count e = 1 →
      ∃ l' r', modifySeq p (.elem t a pr l r c) hs = some (.elem t a pr l' r' c) ∧
        (lookupProp l' e).isSome = true ∧ r'.count e = 1 := by
  intro hs
  induction hs with
  | nil =>
    intro t a pr l r c hl hr
    exact ⟨l, r, rfl, hl, hr⟩
  | cons h0 hs ih =>
    intro t a pr l r c hl hr
    rw [modifySeq_cons p _ h0 hs t a pr l r c rfl, stepProp_event _ p e h0 he]
    have hnotnone : (lookupProp l e).isNone = false := by
      cases hlk : lookupProp l e
      · rw [hlk] at hl; cases hl
      · simp
    rw [setListener]
    simp only [hnotnone, Bool.false_eq_true, if_false]
    have hl' : (lookupProp (setStore l e h0) e).isSome = true := by
      rw [lookupProp_setStore]
      simp
    exact ih t a pr (setStore l e h0) r c hl' hr

/-- C5.  For a fresh event name on a live element, any non-empty sequence
of `Modify` patches that set, then repeatedly change, the handler for
that event makes exactly one platform registration in total (the count of
registrations on the element stays 1 after every later change, and no
removal happens in between), and a final `Modify` that removes the
handler brings the platform registration count for that event to 0 and
empties the side-table entry. -/
theorem listener_single_registration
    (p e : String) (he : eventName p = some e)
    (t : String) (a pr l : List (String × PropValue)) (r : List String)
    (c : List LiveNode)
    (hl : lookupProp l e = none) (hr : r.count e = 0)
    (hs : List PropValue) (h0 : PropValue) :
    ∃ l' r', modifySeq p (.elem t a pr l r c) (h0 :: hs) =
        some (.elem t a pr l' r' c) ∧
      r'.count e = 1 ∧ (lookupProp l' e).isSome = true ∧
      modifyLive (.elem t a pr l' r' c) [p] [] [] =
        some (.elem t a pr (removeStore l' e) (r'.erase e) c) ∧
      (r'.erase e).count e = 0 ∧ lookupProp (removeStore l' e) e = none := by
  rw [modifySeq_cons p _ h0 hs t a pr l r c rfl, stepProp_event _ p e h0 he]
  rw [setListener]
  simp only [hl, Option.isNone_none, if_true]
  have hl1 : (lookupProp (setStore l e h0) e).isSome = true := by
    rw [lookupProp_setStore]; simp
  have hr1 : (r ++ [e]).count e = 1 := by
    rw [List.count_append]
    simp [hr, List.count_singleton]
  obtain ⟨l', r', hseq, hl', hr'⟩ :=
    modifySeq_established p e he hs t a pr (setStore l e h0) (r ++ [e]) c hl1 hr1
  refine ⟨l', r', hseq, hr', hl', ?_, ?_, ?_⟩
  · rw [modifyLive_elem_noChildPatches]
    rw [List.foldl_cons, List.foldl_nil, List.foldl_nil]
    rw [stepRemove]
    simp only [he]
    rw [removeListenerEl]
  · rw [List.count_erase_self, hr']
  · rw [lookupProp_removeStore]
    simp

theorem listener_single_registration_witness :
    eventName "onClick" = some "click" ∧
    (∃ l' r', modifySeq "onClick" (.elem "button" [] [] [] [] [])
        [.handler 1, .handler 2, .handler 3] = some (.elem "button" [] [] l' r' []) ∧
      r'.count "click" = 1 ∧ (lookupProp l' "click").isSome = true ∧
      modifyLive (.elem "button" [] [] l' r' []) ["onClick"] [] [] =
        some (.elem "button" [] [] (removeStore l' "click") (r'.erase "click") []) ∧
      (r'.erase "click").count "click" = 0 ∧
      lookupProp (removeStore l' "click") "click" = none) := by
  have he : eventName "onClick" = some "click" := by decide
  exact ⟨he, listener_single_registration "onClick" "click" he "button" [] [] [] [] []
    (by simp [lookupProp]) (by simp) [.handler 2, .handler 3] (.handler 1)⟩

end SMVC

namespace SMVC

/-! ## Registrations die with their node -/

theorem regsList_nil : regsList [] = 0 := rfl

theorem regsList_cons (c : LiveNode) (cs : List LiveNode) :
    regsList (c :: cs) = regsTree c + regsList cs := by
  simp [regsList]

theorem appendedNodes_eq_nil_no_create {ps : List Patch}
    (h : ∀ p ∈ ps, p = Patch.noop ∨ p = Patch.remove ∨ ∃ n, p = Patch.replace n) :
    appendedNodes ps = [] := by
  rw [appendedNodes, List.filterMap_eq_nil_iff]
  intro p hp
  rcases h p hp with rfl | rfl | ⟨n, rfl⟩ <;> rfl

/-- C4.  When `apply` executes `Remove` or `Replace` patches, the
platform listener registrations of the destroyed children leave the live
tree with their nodes: the registrations of the result plus those of the
destroyed subtrees balance exactly against the original tree plus the
freshly mounted replacements — no registration of a removed or replaced
subtree survives into the resulting tree. -/
theorem registrations_die_with_removed_nodes :
    ∀ (cs : List LiveNode) (ps : List Patch),
      (∀ p ∈ ps, p = Patch.noop ∨ p = Patch.remove ∨ ∃ n, p = Patch.replace n) →
      ps.length ≤ cs.length →
      ∃ cs', applyChildren cs ps = some cs' ∧
        regsList cs' + regsList (destroyedChildren cs ps) =
          regsList cs + regsList (replacementNodes ps) := by
  intro cs
  induction cs with
  | nil =>
    intro ps h hlen
    have : ps = [] := List.length_eq_zero.mp (Nat.le_zero.mp (by simpa using hlen))
    subst this
    refine ⟨[], ?_, rfl⟩
    simp [applyChildren, applyOrig, appendedNodes]
  | cons c cs ih =>
    intro ps h hlen
    cases ps with
    | nil =>
      refine ⟨c :: cs, ?_, by simp [destroyedChildren, replacementNodes, regsList]⟩
      simp [applyChildren, applyOrig, appendedNodes]
    | cons p ps =>
      have hps : ∀ q ∈ ps, q = Patch.noop ∨ q = Patch.remove ∨ ∃ n, q = Patch.replace n :=
        fun q hq => h q (List.mem_cons_of_mem _ hq)
      have hlen' : ps.length ≤ cs.length := by
        simp only [List.length_cons] at hlen; omega
      obtain ⟨rest, hrest, heq⟩ := ih ps hps hlen'
      have happ := hrest
      rw [applyChildren] at happ
      rcases Option.map_eq_some'.mp happ with ⟨orig, horig, hor⟩
      rw [appendedNodes_eq_nil_no_create hps, List.append_nil] at hor
      subst hor
      rcases h p (by simp) with rfl | rfl | ⟨n, rfl⟩
      · refine ⟨c :: orig, ?_, ?_⟩
        · rw [applyChildren, appendedNodes_eq_nil_no_create h]
          simp [applyOrig, horig]
        · simp only [destroyedChildren, replacementNodes, List.filterMap_cons] at heq ⊢
          simp only [regsList_cons]
          omega
      · refine ⟨orig, ?_, ?_⟩
        · rw [applyChildren, appendedNodes_eq_nil_no_create h]
          simp [applyOrig, horig]
        · simp only [destroyedChildren, replacementNodes, List.filterMap_cons] at heq ⊢
          simp only [regsList_cons]
          omega
      · refine ⟨createLive n :: orig, ?_, ?_⟩
        · rw [applyChildren, appendedNodes_eq_nil_no_create h]
          simp [applyOrig, horig]
        · simp only [destroyedChildren, replacementNodes, List.filterMap_cons] at heq ⊢
          simp only [regsList_cons]
          omega

theorem registrations_die_with_removed_nodes_witness :
    (∀ p ∈ [Patch.remove, Patch.replace (.text "x")],
        p = Patch.noop ∨ p = Patch.remove ∨ ∃ n, p = Patch.replace n) ∧
    (∃ cs', applyChildren
        [LiveNode.elem "div" [] [] [("click", .handler 0)] ["click"] [],
         LiveNode.elem "span" [] [] [("keyup", .handler 1)] ["keyup"] []]
        [Patch.remove, Patch.replace (.text "x")] = some cs' ∧
      regsList cs' + regsList (destroyedChildren
        [LiveNode.elem "div" [] [] [("click", .handler 0)] ["click"] [],
         LiveNode.elem "span" [] [] [("keyup", .handler 1)] ["keyup"] []]
        [Patch.remove, Patch.replace (.text "x")]) =
      regsList
        [LiveNode.elem "div" [] [] [("click", .handler 0)] ["click"] [],
         LiveNode.elem "span" [] [] [("keyup", .handler 1)] ["keyup"] []] +
        regsList (replacementNodes [Patch.remove, Patch.replace (.text "x")])) := by
  constructor
  · intro p hp
    fin_cases hp
    · exact Or.inr (Or.inl rfl)
    · exact Or.inr (Or.inr ⟨.text "x", rfl⟩)
  · exact registrations_die_with_removed_nodes _ _
      (by intro p hp; fin_cases hp
          · exact Or.inr (Or.inl rfl)
          · exact Or.inr (Or.inr ⟨.text "x", rfl⟩))
      (by simp)

end SMVC

namespace SMVC

/-! ## Observation helpers -/

theorem storeEq_of_lookup_eq {xs ys : List (String × PropValue)}
    (h : ∀ k, lookupProp xs k = lookupProp ys k) : storeEq xs ys = true := by
  rw [storeEq, Bool.and_eq_true]
  constructor <;>
  · simp only [List.all_eq_true]
    intro kv _
    simp [h kv.1]

theorem obsEq_refl : ∀ c : LiveNode, obsEq c c = true := by
  apply livenodeStrongInduction
  · intro s; simp [obsEq]
  · intro t a p l r c ih
    rw [obsEq]
    simp only [Bool.and_eq_true]
    refine ⟨⟨⟨by simp, storeEq_of_lookup_eq (fun _ => rfl)⟩,
      storeEq_of_lookup_eq (fun _ => rfl)⟩, ?_⟩
    induction c with
    | nil => simp [obsEqList]
    | cons x xs ihl =>
      rw [obsEqList, Bool.and_eq_true]
      exact ⟨ih x (by simp), ihl (fun y hy => ih y (List.mem_cons_of_mem _ hy))⟩

theorem obsEqList_refl (cs : List LiveNode) : obsEqList cs cs = true := by
  induction cs with
  | nil => simp [obsEqList]
  | cons x xs ih =>
    rw [obsEqList, Bool.and_eq_true]
    exact ⟨obsEq_refl x, ih⟩

/-! ## Key membership and lookup -/

theorem lookupProp_none_of_not_mem {st : List (String × PropValue)} {k : String}
    (h : k ∉ st.map Prod.fst) : lookupProp st k = none := by
  rw [lookupProp]
  have : st.find? (fun kv => kv.1 == k) = none := by
    rw [List.find?_eq_none]
    intro kv hkv hbeq
    exact h (List.mem_map.mpr ⟨kv, hkv, by simpa using hbeq⟩)
  simp [this]

theorem lookupProp_none_iff_not_mem {st : List (String × PropValue)} {k : String} :
    lookupProp st k = none ↔ k ∉ st.map Prod.fst := by
  constructor
  · intro h hmem
    have := lookupProp_isSome_of_key_mem hmem
    rw [h] at this
    cases this
  · exact lookupProp_none_of_not_mem

theorem removedProps_mem {lp rp : List (String × PropValue)} {k : String} :
    k ∈ removedProps lp rp ↔ k ∈ lp.map Prod.fst ∧ lookupProp rp k = none := by
  rw [removedProps, List.mem_filter]
  simp [Option.isNone_iff_eq_none]

end SMVC

namespace SMVC

/-! ## setProps lookups -/

theorem wfProps_cons {kv : String × PropValue} {rest : List (String × PropValue)}
    (h : wfProps (kv :: rest) = true) :
    kv.1 ∉ rest.map Prod.fst ∧ wfProps rest = true := by
  rw [wfProps] at h ⊢
  simp only [List.map_cons, List.nodup_cons, decide_eq_true_eq] at h
  exact ⟨h.1, by simp [h.2]⟩

theorem setProps_sublist_keys (lp rp : List (String × PropValue)) :
    ((setProps lp rp).map Prod.fst).Sublist (rp.map Prod.fst) :=
  List.Sublist.map Prod.fst (List.filter_sublist rp)

theorem wfProps_setProps {lp rp : List (String × PropValue)}
    (h : wfProps rp = true) : wfProps (setProps lp rp) = true := by
  rw [wfProps] at h ⊢
  simp only [decide_eq_true_eq] at h ⊢
  exact List.Nodup.sublist (setProps_sublist_keys lp rp) h

theorem setProps_lookup_some {lp rp : List (String × PropValue)} {k : String}
    {v : PropValue} (hwf : wfProps rp = true)
    (h : lookupProp (setProps lp rp) k = some v) :
    lookupProp rp k = some v := by
  induction rp with
  | nil => simp [setProps, lookupProp] at h
  | cons kv rest ih =>
    obtain ⟨hk0, hwf'⟩ := wfProps_cons hwf
    rw [setProps] at h
    by_cases hkeep : lookupProp lp kv.1 = some kv.2
    · rw [List.filter_cons_of_neg (by simp [hkeep])] at h
      by_cases hkk : k = kv.1
      · subst hkk
        have hnone : lookupProp (setProps lp rest) kv.1 = none := by
          apply lookupProp_none_of_not_mem
          intro hmem
          exact hk0 (List.Sublist.mem hmem (setProps_sublist_keys lp rest))
        rw [setProps] at hnone
        rw [hnone] at h
        cases h
      · rw [lookupProp, List.find?_cons_of_neg _ (by simp; exact fun he => hkk he.symm)]
        exact ih hwf' h
    · rw [List.filter_cons_of_pos (by simp [hkeep])] at h
      by_cases hkk : k = kv.1
      · subst hkk
        rw [lookupProp, List.find?_cons_of_pos _ (by simp)] at h ⊢
        exact h
      · rw [lookupProp, List.find?_cons_of_neg _ (by simp; exact fun he => hkk he.symm)] at h ⊢
        exact ih hwf' h

theorem setProps_lookup_none {lp rp : List (String × PropValue)} {k : String}
    (hwf : wfProps rp = true)
    (h : lookupProp (setProps lp rp) k = none) :
    lookupProp rp k = none ∨ lookupProp lp k = lookupProp rp k := by
  induction rp with
  | nil => left; rfl
  | cons kv rest ih =>
    obtain ⟨hk0, hwf'⟩ := wfProps_cons hwf
    rw [setProps] at h
    by_cases hkk : k = kv.1
    · subst hkk
      by_cases hkeep : lookupProp lp kv.1 = some kv.2
      · right
        have hc : lookupProp (kv :: rest) kv.1 = some kv.2 := by
          rw [lookupProp, List.find?_cons_of_pos _ (by simp)]
          rfl
        rw [hkeep, hc]
      · rw [List.filter_cons_of_pos (by simp [hkeep])] at h
        rw [lookupProp, List.find?_cons_of_pos _ (by simp)] at h
        cases h
    · have hcons : lookupProp (kv :: rest) k = lookupProp rest k := by
        rw [lookupProp, List.find?_cons_of_neg _ (by simp; exact fun he => hkk he.symm)]
        rfl
      rw [hcons]
      have h' : lookupProp (setProps lp rest) k = none := by
        by_cases hkeep : lookupProp lp kv.1 = some kv.2
        · rw [List.filter_cons_of_neg (by simp [hkeep])] at h
          exact h
        · rw [List.filter_cons_of_pos (by simp [hkeep])] at h
          rw [lookupProp, List.find?_cons_of_neg _
            (by simp; exact fun he => hkk he.symm)] at h
          exact h
      exact ih hwf' h'

end SMVC

namespace SMVC

/-! ## Pointwise characterization of the property loops -/

theorem lookupProp_cons_self (kv : String × PropValue)
    (rest : List (String × PropValue)) :
    lookupProp (kv :: rest) kv.1 = some kv.2 := by
  rw [lookupProp, List.find?_cons_of_pos _ (by simp)]
  rfl

theorem lookupProp_cons_ne {k : String} {kv : String × PropValue}
    (rest : List (String × PropValue)) (h : k ≠ kv.1) :
    lookupProp (kv :: rest) k = lookupProp rest k := by
  rw [lookupProp, List.find?_cons_of_neg _ (by simp; exact fun he => h he.symm)]
  rfl

theorem stepProp_event_shape {kv : String × PropValue} {ev : String}
    (t : String) (a p l : List (String × PropValue)) (r : List String)
    (c : List LiveNode) (he : eventName kv.1 = some ev) :
    ∃ l' r', stepProp (.elem t a p l r c) kv = .elem t a p l' r' c := by
  refine ⟨setStore l ev kv.2, if (lookupProp l ev).isNone then r ++ [ev] else r, ?_⟩
  simp [stepProp, he, setListener]

theorem stepProp_plain_allow {kv : String × PropValue}
    (t : String) (a p l : List (String × PropValue)) (r : List String)
    (c : List LiveNode) (he : eventName kv.1 = none)
    (hm : props.contains kv.1 = true) :
    stepProp (.elem t a p l r c) kv = .elem t a (setStore p kv.1 kv.2) l r c := by
  have hmem : kv.1 ∈ props := by simpa using hm
  simp [stepProp, he, setProperty, hmem]

theorem stepProp_plain_attr {kv : String × PropValue}
    (t : String) (a p l : List (String × PropValue)) (r : List String)
    (c : List LiveNode) (he : eventName kv.1 = none)
    (hm : props.contains kv.1 = false) :
    stepProp (.elem t a p l r c) kv = .elem t (setStore a kv.1 kv.2) p l r c := by
  have hmem : kv.1 ∉ props := fun hmem => by
    have hc : props.contains kv.1 = true := by simpa using hmem
    rw [hc] at hm
    cases hm
  simp [stepProp, he, setProperty, hmem]

theorem stepRemove_event_shape {prop ev : String}
    (t : String) (a p l : List (String × PropValue)) (r : List String)
    (c : List LiveNode) (he : eventName prop = some ev) :
    stepRemove (.elem t a p l r c) prop = .elem t a p (removeStore l ev) (r.erase ev) c := by
  simp [stepRemove, he, removeListenerEl]

theorem stepRemove_plain {prop : String}
    (t : String) (a p l : List (String × PropValue)) (r : List String)
    (c : List LiveNode) (he : eventName prop = none) :
    stepRemove (.elem t a p l r c) prop = .elem t (removeStore a prop) p l r c := by
  simp [stepRemove, he, removeAttributeEl]

theorem foldl_stepProp_attrs_lookup (set : List (String × PropValue)) :
    ∀ (t : String) (a p l : List (String × PropValue)) (r : List String)
      (c : List LiveNode) (k : String), wfProps set = true →
      lookupProp (attrsOf (set.foldl stepProp (.elem t a p l r c))) k =
        if eventName k = none ∧ props.contains k = false
        then ((lookupProp set k).or (lookupProp a k))
        else lookupProp a k := by
  induction set with
  | nil =>
    intro t a p l r c k _
    simp only [List.foldl_nil, attrsOf]
    by_cases hc : eventName k = none ∧ props.contains k = false
    · rw [if_pos hc]; rfl
    · rw [if_neg hc]
  | cons kv rest ih =>
    intro t a p l r c k hwf
    obtain ⟨hk0, hwf'⟩ := wfProps_cons hwf
    rw [List.foldl_cons]
    cases he : eventName kv.1 with
    | some ev =>
      obtain ⟨l', r', hst⟩ := stepProp_event_shape t a p l r c he
      rw [hst, ih t a p l' r' c k hwf']
      by_cases hkk : k = kv.1
      · subst hkk
        have hcond : ¬(eventName kv.1 = none ∧ props.contains kv.1 = false) := by
          simp [he]
        rw [if_neg hcond, if_neg hcond]
      · rw [lookupProp_cons_ne rest hkk]
    | none =>
      by_cases hm : props.contains kv.1 = true
      · rw [stepProp_plain_allow t a p l r c he hm, ih t a _ l r c k hwf']
        by_cases hkk : k = kv.1
        · subst hkk
          have hmm : kv.1 ∈ props := by simpa using hm
          have hcond : ¬(eventName kv.1 = none ∧ props.contains kv.1 = false) := by
            simp [hmm]
          rw [if_neg hcond, if_neg hcond]
        · rw [lookupProp_cons_ne rest hkk]
      · have hm' : props.contains kv.1 = false := by
          cases hmm : props.contains kv.1
          · rfl
          · exact absurd hmm hm
        rw [stepProp_plain_attr t a p l r c he hm', ih t _ p l r c k hwf']
        by_cases hkk : k = kv.1
        · subst hkk
          have hcond : eventName kv.1 = none ∧ props.contains kv.1 = false := ⟨he, hm'⟩
          rw [if_pos hcond, if_pos hcond]
          rw [lookupProp_none_of_not_mem hk0, lookupProp_setStore, if_pos rfl,
            lookupProp_cons_self]
          rfl
        · rw [lookupProp_setStore, if_neg hkk, lookupProp_cons_ne rest hkk]

theorem foldl_stepProp_props_lookup (set : List (String × PropValue)) :
    ∀ (t : String) (a p l : List (String × PropValue)) (r : List String)
      (c : List LiveNode) (k : String), wfProps set = true →
      lookupProp (propsOf (set.foldl stepProp (.elem t a p l r c))) k =
        if eventName k = none ∧ props.contains k = true
        then ((lookupProp set k).or (lookupProp p k))
        else lookupProp p k := by
  induction set with
  | nil =>
    intro t a p l r c k _
    simp only [List.foldl_nil, propsOf]
    by_cases hc : eventName k = none ∧ props.contains k = true
    · rw [if_pos hc]; rfl
    · rw [if_neg hc]
  | cons kv rest ih =>
    intro t a p l r c k hwf
    obtain ⟨hk0, hwf'⟩ := wfProps_cons hwf
    rw [List.foldl_cons]
    cases he : eventName kv.1 with
    | some ev =>
      obtain ⟨l', r', hst⟩ := stepProp_event_shape t a p l r c he
      rw [hst, ih t a p l' r' c k hwf']
      by_cases hkk : k = kv.1
      · subst hkk
        have hcond : ¬(eventName kv.1 = none ∧ props.contains kv.1 = true) := by
          simp [he]
        rw [if_neg hcond, if_neg hcond]
      · rw [lookupProp_cons_ne rest hkk]
    | none =>
      by_cases hm : props.contains kv.1 = true
      · rw [stepProp_plain_allow t a p l r c he hm, ih t a _ l r c k hwf']
        by_cases hkk : k = kv.1
        · subst hkk
          have hcond : eventName kv.1 = none ∧ props.contains kv.1 = true := ⟨he, hm⟩
          rw [if_pos hcond, if_pos hcond]
          rw [lookupProp_none_of_not_mem hk0, lookupProp_setStore, if_pos rfl,
            lookupProp_cons_self]
          rfl
        · rw [lookupProp_setStore, if_neg hkk, lookupProp_cons_ne rest hkk]
      · have hm' : props.contains kv.1 = false := by
          cases hmm : props.contains kv.1
          · rfl
          · exact absurd hmm hm
        rw [stepProp_plain_attr t a p l r c he hm', ih t _ p l r c k hwf']
        by_cases hkk : k = kv.1
        · subst hkk
          have hnm : kv.1 ∉ props := fun hx => hm (by simpa using hx)
          have hcond : ¬(eventName kv.1 = none ∧ props.contains kv.1 = true) :=
            fun hx => hnm (by simpa using hx.2)
          rw [if_neg hcond, if_neg hcond]
        · rw [lookupProp_cons_ne rest hkk]

theorem foldl_stepRemove_attrs_lookup (rem : List String) :
    ∀ (t : String) (a p l : List (String × PropValue)) (r : List String)
      (c : List LiveNode) (k : String),
      lookupProp (attrsOf (rem.foldl stepRemove (.elem t a p l r c))) k =
        if k ∈ rem ∧ eventName k = none then none else lookupProp a k := by
  induction rem with
  | nil =>
    intro t a p l r c k
    simp only [List.foldl_nil, attrsOf]
    rw [if_neg (by simp)]
  | cons r0 rest ih =>
    intro t a p l r c k
    rw [List.foldl_cons]
    cases he : eventName r0 with
    | some ev =>
      rw [stepRemove_event_shape t a p l r c he, ih]
      by_cases hkk : k = r0
      · subst hkk
        have hc1 : ¬(k ∈ rest ∧ eventName k = none) := fun hx => by
          rw [he] at hx; cases hx.2
        have hc2 : ¬(k ∈ k :: rest ∧ eventName k = none) := fun hx => by
          rw [he] at hx; cases hx.2
        rw [if_neg hc1, if_neg hc2]
      · have hiff : (k ∈ rest ∧ eventName k = none) ↔
            (k ∈ r0 :: rest ∧ eventName k = none) := by
          simp [List.mem_cons, hkk]
        exact if_congr hiff rfl rfl
    | none =>
      rw [stepRemove_plain t a p l r c he, ih]
      by_cases hkk : k = r0
      · subst hkk
        by_cases hin : k ∈ rest ∧ eventName k = none
        · rw [if_pos hin, if_pos ⟨List.mem_cons_self k rest, he⟩]
        · rw [if_neg hin, lookupProp_removeStore, if_pos rfl,
            if_pos ⟨List.mem_cons_self k rest, he⟩]
      · rw [lookupProp_removeStore, if_neg hkk]
        have hiff : (k ∈ rest ∧ eventName k = none) ↔
            (k ∈ r0 :: rest ∧ eventName k = none) := by
          simp [List.mem_cons, hkk]
        exact if_congr hiff rfl rfl

theorem foldl_stepRemove_props_eq (rem : List String) :
    ∀ (t : String) (a p l : List (String × PropValue)) (r : List String)
      (c : List LiveNode),
      propsOf (rem.foldl stepRemove (.elem t a p l r c)) = p := by
  induction rem with
  | nil => intro t a p l r c; rfl
  | cons r0 rest ih =>
    intro t a p l r c
    rw [List.foldl_cons]
    cases he : eventName r0 with
    | some ev => rw [stepRemove_event_shape t a p l r c he, ih]
    | none => rw [stepRemove_plain t a p l r c he, ih]

end SMVC

namespace SMVC

/-! ## createLive store characterization -/

theorem createLive_elem_eq (t : String) (ps : List (String × PropValue))
    (cs : List VNode) :
    createLive (.elem t ps cs) = .elem t
      (attrsOf (ps.foldl stepProp (.elem t [] [] [] [] [])))
      (propsOf (ps.foldl stepProp (.elem t [] [] [] [] [])))
      (listenersOf (ps.foldl stepProp (.elem t [] [] [] [] [])))
      (registeredOf (ps.foldl stepProp (.elem t [] [] [] [] [])))
      (cs.map createLive) := by
  obtain ⟨a', p', l', rg', hsh⟩ := foldl_stepProp_shape ps t [] [] [] [] []
  simp only [createLive, hsh, attrsOf, propsOf, listenersOf, registeredOf]
  rw [map_attach]

theorem createF_attrs_lookup (t : String) (ps : List (String × PropValue))
    (k : String) (hwf : wfProps ps = true) :
    lookupProp (attrsOf (ps.foldl stepProp (.elem t [] [] [] [] []))) k =
      if eventName k = none ∧ props.contains k = false then lookupProp ps k
      else none := by
  rw [foldl_stepProp_attrs_lookup ps t [] [] [] [] [] k hwf]
  by_cases hc : eventName k = none ∧ props.contains k = false
  · rw [if_pos hc, if_pos hc]
    cases lookupProp ps k <;> rfl
  · rw [if_neg hc, if_neg hc]
    rfl

theorem createF_props_lookup (t : String) (ps : List (String × PropValue))
    (k : String) (hwf : wfProps ps = true) :
    lookupProp (propsOf (ps.foldl stepProp (.elem t [] [] [] [] []))) k =
      if eventName k = none ∧ props.contains k = true then lookupProp ps k
      else none := by
  rw [foldl_stepProp_props_lookup ps t [] [] [] [] [] k hwf]
  by_cases hc : eventName k = none ∧ props.contains k = true
  · rw [if_pos hc, if_pos hc]
    cases lookupProp ps k <;> rfl
  · rw [if_neg hc, if_neg hc]
    rfl

theorem createLive_attrs_lookup (t : String) (ps : List (String × PropValue))
    (cs : List VNode) (k : String) (hwf : wfProps ps = true) :
    lookupProp (attrsOf (createLive (.elem t ps cs))) k =
      if eventName k = none ∧ props.contains k = false then lookupProp ps k
      else none := by
  rw [createLive_elem_eq]
  exact createF_attrs_lookup t ps k hwf

theorem createLive_props_lookup (t : String) (ps : List (String × PropValue))
    (cs : List VNode) (k : String) (hwf : wfProps ps = true) :
    lookupProp (propsOf (createLive (.elem t ps cs))) k =
      if eventName k = none ∧ props.contains k = true then lookupProp ps k
      else none := by
  rw [createLive_elem_eq]
  exact createF_props_lookup t ps k hwf

/-! ## Pointwise round-trip of the two stores -/

theorem patched_attrs_pointwise (lp rp : List (String × PropValue))
    (_hwl : wfProps lp = true) (hwr : wfProps rp = true) (k : String) :
    (if eventName k = none ∧ props.contains k = false
     then (lookupProp (setProps lp rp) k).or
       (if k ∈ removedProps lp rp ∧ eventName k = none then none
        else if eventName k = none ∧ props.contains k = false
             then lookupProp lp k else none)
     else if k ∈ removedProps lp rp ∧ eventName k = none then none
          else if eventName k = none ∧ props.contains k = false
               then lookupProp lp k else none) =
    (if eventName k = none ∧ props.contains k = false then lookupProp rp k
     else none) := by
  by_cases hc : eventName k = none ∧ props.contains k = false
  · simp only [if_pos hc]
    cases hset : lookupProp (setProps lp rp) k with
    | some v =>
      rw [setProps_lookup_some hwr hset]
      rfl
    | none =>
      rcases setProps_lookup_none hwr hset with hrp | heq
      · rw [hrp]
        by_cases hmem : k ∈ lp.map Prod.fst
        · rw [if_pos ⟨removedProps_mem.mpr ⟨hmem, hrp⟩, hc.1⟩]
          rfl
        · rw [if_neg (fun hx => hmem (removedProps_mem.mp hx.1).1),
            lookupProp_none_of_not_mem hmem]
          rfl
      · by_cases hmem2 : k ∈ removedProps lp rp
        · obtain ⟨hkeys, hnone⟩ := removedProps_mem.mp hmem2
          rw [hnone] at heq
          have hsome := lookupProp_isSome_of_key_mem hkeys
          rw [heq] at hsome
          cases hsome
        · rw [if_neg (fun hx => hmem2 hx.1), heq]
          rfl
  · simp only [if_neg hc]
    by_cases hmem : k ∈ removedProps lp rp ∧ eventName k = none
    · rw [if_pos hmem]
    · rw [if_neg hmem]

theorem patched_props_pointwise (lp rp : List (String × PropValue))
    (_hwl : wfProps lp = true) (hwr : wfProps rp = true)
    (hgood : (removedProps lp rp).all
      (fun q => !((eventName q).isNone && props.contains q)) = true) (k : String) :
    (if eventName k = none ∧ props.contains k = true
     then (lookupProp (setProps lp rp) k).or
       (if eventName k = none ∧ props.contains k = true
        then lookupProp lp k else none)
     else if eventName k = none ∧ props.contains k = true
          then lookupProp lp k else none) =
    (if eventName k = none ∧ props.contains k = true then lookupProp rp k
     else none) := by
  by_cases hc : eventName k = none ∧ props.contains k = true
  · simp only [if_pos hc]
    cases hset : lookupProp (setProps lp rp) k with
    | some v =>
      rw [setProps_lookup_some hwr hset]
      rfl
    | none =>
      rcases setProps_lookup_none hwr hset with hrp | heq
      · rw [hrp]
        by_cases hmem : k ∈ lp.map Prod.fst
        · have hrem : k ∈ removedProps lp rp := removedProps_mem.mpr ⟨hmem, hrp⟩
          simp only [List.all_eq_true] at hgood
          have hgq := hgood k hrem
          rw [hc.1] at hgq
          simp only [Option.isNone_none, Bool.true_and, Bool.not_eq_true'] at hgq
          rw [hgq] at hc
          cases hc.2
        · rw [lookupProp_none_of_not_mem hmem]
          rfl
      · rw [heq]
        rfl
  · simp only [if_neg hc]

end SMVC

namespace SMVC

theorem modifyLive_elem_result (t : String) (a p l : List (String × PropValue))
    (r : List String) (c : List LiveNode) (rem : List String)
    (set : List (String × PropValue)) (cps : List Patch) (orig : List LiveNode)
    (horig : applyOrig c cps = some orig) :
    ∃ a2 p2 l2 rg2,
      modifyLive (.elem t a p l r c) rem set cps =
        some (.elem t a2 p2 l2 rg2 (orig ++ appendedNodes cps)) ∧
      set.foldl stepProp (rem.foldl stepRemove (.elem t a p l r c)) =
        .elem t a2 p2 l2 rg2 c := by
  obtain ⟨a1, l1, rg1, hsh1⟩ := foldl_stepRemove_shape rem t a p l r c
  obtain ⟨a2, p2, l2, rg2, hsh2⟩ := foldl_stepProp_shape set t a1 p l1 rg1 c
  refine ⟨a2, p2, l2, rg2, ?_, by rw [hsh1, hsh2]⟩
  rw [modifyLive, hsh1, hsh2]
  show (applyOrig c cps).map
      (fun cc' => LiveNode.elem t a2 p2 l2 rg2 (cc' ++ appendedNodes cps)) =
    some (.elem t a2 p2 l2 rg2 (orig ++ appendedNodes cps))
  rw [horig]
  rfl

theorem modify_roundtrip_case
    (t : String) (lp : List (String × PropValue)) (lc : List VNode)
    (rp : List (String × PropValue)) (rc : List VNode)
    (hwl : wfProps lp = true) (hwr : wfProps rp = true)
    (hgood : (removedProps lp rp).all
      (fun q => !((eventName q).isNone && props.contains q)) = true)
    (ls : List LiveNode)
    (hch : applyChildren (lc.map createLive) (diffList lc rc) = some ls)
    (hobs : obsEqList ls (rc.map createLive) = true) :
    ∃ el', modifyLive (createLive (.elem t lp lc)) (removedProps lp rp)
        (setProps lp rp) (diffList lc rc) = some el' ∧
      obsEq el' (createLive (.elem t rp rc)) = true := by
  rw [applyChildren] at hch
  rcases Option.map_eq_some'.mp hch with ⟨orig, horig, hls⟩
  rw [createLive_elem_eq t lp lc]
  obtain ⟨a2, p2, l2, rg2, hres, hfold⟩ := modifyLive_elem_result t
    (attrsOf (lp.foldl stepProp (.elem t [] [] [] [] [])))
    (propsOf (lp.foldl stepProp (.elem t [] [] [] [] [])))
    (listenersOf (lp.foldl stepProp (.elem t [] [] [] [] [])))
    (registeredOf (lp.foldl stepProp (.elem t [] [] [] [] [])))
    (lc.map createLive) (removedProps lp rp) (setProps lp rp)
    (diffList lc rc) orig horig
  rw [hls] at hres
  refine ⟨.elem t a2 p2 l2 rg2 ls, hres, ?_⟩
  rw [createLive_elem_eq t rp rc]
  rw [obsEq]
  simp only [Bool.and_eq_true]
  refine ⟨⟨⟨by simp, ?_⟩, ?_⟩, hobs⟩
  · -- attributes store
    apply storeEq_of_lookup_eq
    intro k
    have ha2 : lookupProp a2 k = lookupProp (attrsOf
        ((setProps lp rp).foldl stepProp ((removedProps lp rp).foldl stepRemove
          (.elem t (attrsOf (lp.foldl stepProp (.elem t [] [] [] [] [])))
            (propsOf (lp.foldl stepProp (.elem t [] [] [] [] [])))
            (listenersOf (lp.foldl stepProp (.elem t [] [] [] [] [])))
            (registeredOf (lp.foldl stepProp (.elem t [] [] [] [] [])))
            (lc.map createLive))))) k := by
      rw [hfold]
      rfl
    rw [ha2]
    obtain ⟨a1, l1, rg1, hsh1⟩ := foldl_stepRemove_shape (removedProps lp rp) t
      (attrsOf (lp.foldl stepProp (.elem t [] [] [] [] [])))
      (propsOf (lp.foldl stepProp (.elem t [] [] [] [] [])))
      (listenersOf (lp.foldl stepProp (.elem t [] [] [] [] [])))
      (registeredOf (lp.foldl stepProp (.elem t [] [] [] [] [])))
      (lc.map createLive)
    rw [hsh1]
    rw [foldl_stepProp_attrs_lookup (setProps lp rp) t a1
      (propsOf (lp.foldl stepProp (.elem t [] [] [] [] []))) l1 rg1
      (lc.map createLive) k (wfProps_setProps hwr)]
    have ha1 : lookupProp a1 k = lookupProp (attrsOf
        ((removedProps lp rp).foldl stepRemove
          (.elem t (attrsOf (lp.foldl stepProp (.elem t [] [] [] [] [])))
            (propsOf (lp.foldl stepProp (.elem t [] [] [] [] [])))
            (listenersOf (lp.foldl stepProp (.elem t [] [] [] [] [])))
            (registeredOf (lp.foldl stepProp (.elem t [] [] [] [] [])))
            (lc.map createLive)))) k := by
      rw [hsh1]
      rfl
    rw [ha1, foldl_stepRemove_attrs_lookup]
    rw [createF_attrs_lookup t lp k hwl, createF_attrs_lookup t rp k hwr]
    exact patched_attrs_pointwise lp rp hwl hwr k
  · -- direct-property store
    apply storeEq_of_lookup_eq
    intro k
    have hp2 : lookupProp p2 k = lookupProp (propsOf
        ((setProps lp rp).foldl stepProp ((removedProps lp rp).foldl stepRemove
          (.elem t (attrsOf (lp.foldl stepProp (.elem t [] [] [] [] [])))
            (propsOf (lp.foldl stepProp (.elem t [] [] [] [] [])))
            (listenersOf (lp.foldl stepProp (.elem t [] [] [] [] [])))
            (registeredOf (lp.foldl stepProp (.elem t [] [] [] [] [])))
            (lc.map createLive))))) k := by
      rw [hfold]
      rfl
    rw [hp2]
    obtain ⟨a1, l1, rg1, hsh1⟩ := foldl_stepRemove_shape (removedProps lp rp) t
      (attrsOf (lp.foldl stepProp (.elem t [] [] [] [] [])))
      (propsOf (lp.foldl stepProp (.elem t [] [] [] [] [])))
      (listenersOf (lp.foldl stepProp (.elem t [] [] [] [] [])))
      (registeredOf (lp.foldl stepProp (.elem t [] [] [] [] [])))
      (lc.map createLive)
    rw [hsh1]
    rw [foldl_stepProp_props_lookup (setProps lp rp) t a1
      (propsOf (lp.foldl stepProp (.elem t [] [] [] [] []))) l1 rg1
      (lc.map createLive) k (wfProps_setProps hwr)]
    rw [createF_props_lookup t lp k hwl, createF_props_lookup t rp k hwr]
    exact patched_props_pointwise lp rp hwl hwr hgood k

end SMVC

namespace SMVC

theorem appendedNodes_cons_noncreate (p : Patch) (ps : List Patch)
    (h : ∀ n, p ≠ Patch.create n) : appendedNodes (p :: ps) = appendedNodes ps := by
  rw [appendedNodes, appendedNodes, List.filterMap_cons]
  cases p with
  | create n => exact absurd rfl (h n)
  | noop => rfl
  | replace n => rfl
  | remove => rfl
  | modify a b c => rfl

theorem applyChildren_cons_noop {cs : List LiveNode} {ps : List Patch}
    {ls : List LiveNode} (c : LiveNode) (h : applyChildren cs ps = some ls) :
    applyChildren (c :: cs) (Patch.noop :: ps) = some (c :: ls) := by
  rw [applyChildren] at h ⊢
  rcases Option.map_eq_some'.mp h with ⟨orig, horig, hl⟩
  simp only [applyOrig, horig, appendedNodes_cons_noncreate Patch.noop ps (by intro n h; cases h)]
  simp [← hl]

theorem applyChildren_cons_replace {cs : List LiveNode} {ps : List Patch}
    {ls : List LiveNode} (c : LiveNode) (n : VNode)
    (h : applyChildren cs ps = some ls) :
    applyChildren (c :: cs) (Patch.replace n :: ps) = some (createLive n :: ls) := by
  rw [applyChildren] at h ⊢
  rcases Option.map_eq_some'.mp h with ⟨orig, horig, hl⟩
  simp only [applyOrig, horig,
    appendedNodes_cons_noncreate (Patch.replace n) ps (by intro m h; cases h)]
  simp [← hl]

theorem applyChildren_cons_modify {cs : List LiveNode} {ps : List Patch}
    {ls : List LiveNode} {c c' : LiveNode} {rem : List String}
    {set : List (String × PropValue)} {cps : List Patch}
    (hm : modifyLive c rem set cps = some c')
    (h : applyChildren cs ps = some ls) :
    applyChildren (c :: cs) (Patch.modify rem set cps :: ps) = some (c' :: ls) := by
  rw [applyChildren] at h ⊢
  rcases Option.map_eq_some'.mp h with ⟨orig, horig, hl⟩
  simp only [applyOrig, horig, hm, Option.bind_eq_bind, Option.some_bind,
    appendedNodes_cons_noncreate (Patch.modify rem set cps) ps (by intro m h; cases h)]
  simp [← hl]

theorem diffList_nil_left (bs : List VNode) :
    ∀ b ∈ diffList [] bs, ∃ n, b = Patch.create n := by
  induction bs with
  | nil => intro b hb; simp [diffList] at hb
  | cons x xs ih =>
    intro b hb
    rw [diffList] at hb
    rcases List.mem_cons.mp hb with rfl | hmem
    · exact ⟨x, rfl⟩
    · exact ih b hmem

theorem applyOrig_diffList_nil_creates (bs : List VNode) :
    applyOrig [] (diffList [] bs) = some [] := by
  induction bs with
  | nil => simp [diffList, applyOrig]
  | cons b bs ih => rw [diffList]; simp only [applyOrig]; exact ih

theorem appendedNodes_diffList_nil (bs : List VNode) :
    appendedNodes (diffList [] bs) = bs.map createLive := by
  induction bs with
  | nil => simp [diffList, appendedNodes]
  | cons b bs ih =>
    rw [diffList, appendedNodes, List.filterMap_cons]
    simp only
    rw [appendedNodes] at ih
    rw [ih, List.map_cons]

theorem applyOrig_diffList_removes (as : List VNode) :
    applyOrig (as.map createLive) (diffList as []) = some [] := by
  induction as with
  | nil => simp [diffList, applyOrig]
  | cons a as ih => rw [diffList]; simp only [List.map_cons, applyOrig]; exact ih

theorem appendedNodes_diffList_removes (as : List VNode) :
    appendedNodes (diffList as []) = [] := by
  induction as with
  | nil => simp [diffList, appendedNodes]
  | cons a as ih =>
    rw [diffList, appendedNodes_cons_noncreate _ _ (by intro n h; cases h)]
    exact ih

end SMVC

namespace SMVC

theorem roundtrip_list :
    ∀ (n : Nat) (as bs : List VNode), sizeOf as + sizeOf bs ≤ n →
      (∀ x ∈ as, x.wfB = true) → (∀ x ∈ bs, x.wfB = true) →
      goodRemovalsList as bs = true →
      ∃ ls, applyChildren (as.map createLive) (diffList as bs) = some ls ∧
        obsEqList ls (bs.map createLive) = true := by
  intro n
  induction n with
  | zero =>
    intro as bs h _ _ _
    exfalso
    have h1 : 1 ≤ sizeOf as := by cases as <;> (simp; try omega)
    have h2 : 1 ≤ sizeOf bs := by cases bs <;> (simp; try omega)
    omega
  | succ n ih =>
    intro as bs hsz hwa hwb hgood
    cases as with
    | nil =>
      cases bs with
      | nil =>
        refine ⟨[], ?_, by simp [obsEqList]⟩
        simp [applyChildren, diffList, applyOrig, appendedNodes]
      | cons b bs' =>
        refine ⟨(b :: bs').map createLive, ?_, obsEqList_refl _⟩
        rw [applyChildren]
        simp only [List.map_nil]
        rw [applyOrig_diffList_nil_creates, appendedNodes_diffList_nil]
        simp
    | cons a as' =>
      cases bs with
      | nil =>
        refine ⟨[], ?_, by simp [obsEqList]⟩
        rw [applyChildren, applyOrig_diffList_removes, appendedNodes_diffList_removes]
        simp
      | cons b bs' =>
        have hszc : sizeOf as' + sizeOf bs' ≤ n := by
          simp only [List.cons.sizeOf_spec] at hsz
          have ha : 1 ≤ sizeOf a := by cases a <;> (simp; try omega)
          have hb : 1 ≤ sizeOf b := by cases b <;> (simp; try omega)
          omega
        have hwa' : ∀ x ∈ as', x.wfB = true :=
          fun x hx => hwa x (List.mem_cons_of_mem _ hx)
        have hwb' : ∀ x ∈ bs', x.wfB = true :=
          fun x hx => hwb x (List.mem_cons_of_mem _ hx)
        have hgood' : goodRemovals a b = true ∧ goodRemovalsList as' bs' = true := by
          rw [goodRemovalsList] at hgood
          simp only [Bool.and_eq_true] at hgood
          exact hgood
        obtain ⟨ls', happ', hobs'⟩ := ih as' bs' hszc hwa' hwb' hgood'.2
        rw [diffList]
        simp only [List.map_cons]
        cases a with
        | text sa =>
          cases b with
          | text sb =>
            by_cases hs : sa = sb
            · subst hs
              have hd : diffOne (VNode.text sa) (VNode.text sa) = Patch.noop := by
                simp [diffOne]
              rw [hd]
              refine ⟨createLive (VNode.text sa) :: ls',
                applyChildren_cons_noop _ happ', ?_⟩
              rw [obsEqList, Bool.and_eq_true]
              exact ⟨obsEq_refl _, hobs'⟩
            · have hd : diffOne (VNode.text sa) (VNode.text sb) =
                  Patch.replace (VNode.text sb) := by
                simp [diffOne, hs]
              rw [hd]
              refine ⟨createLive (VNode.text sb) :: ls',
                applyChildren_cons_replace _ _ happ', ?_⟩
              rw [obsEqList, Bool.and_eq_true]
              exact ⟨obsEq_refl _, hobs'⟩
          | elem tb pb cb =>
            have hd : diffOne (VNode.text sa) (VNode.elem tb pb cb) =
                Patch.replace (VNode.elem tb pb cb) := by
              simp [diffOne]
            rw [hd]
            refine ⟨createLive (VNode.elem tb pb cb) :: ls',
              applyChildren_cons_replace _ _ happ', ?_⟩
            rw [obsEqList, Bool.and_eq_true]
            exact ⟨obsEq_refl _, hobs'⟩
        | elem ta pa ca =>
          cases b with
          | text sb =>
            have hd : diffOne (VNode.elem ta pa ca) (VNode.text sb) =
                Patch.replace (VNode.text sb) := by
              simp [diffOne]
            rw [hd]
            refine ⟨createLive (VNode.text sb) :: ls',
              applyChildren_cons_replace _ _ happ', ?_⟩
            rw [obsEqList, Bool.and_eq_true]
            exact ⟨obsEq_refl _, hobs'⟩
          | elem tb pb cb =>
            by_cases ht : ta = tb
            · subst ht
              have hd : diffOne (VNode.elem ta pa ca) (VNode.elem ta pb cb) =
                  Patch.modify (removedProps pa pb) (setProps pa pb)
                    (diffList ca cb) := by
                simp [diffOne]
              rw [hd]
              obtain ⟨hwpa, hwca⟩ :=
                wfB_elem_parts (hwa (VNode.elem ta pa ca) (by simp))
              obtain ⟨hwpb, hwcb⟩ :=
                wfB_elem_parts (hwb (VNode.elem ta pb cb) (by simp))
              have hszcc : sizeOf ca + sizeOf cb ≤ n := by
                simp only [List.cons.sizeOf_spec, VNode.elem.sizeOf_spec] at hsz
                omega
              have hgoodab : ((removedProps pa pb).all
                  (fun q => !((eventName q).isNone && props.contains q))) = true ∧
                  goodRemovalsList ca cb = true := by
                have := hgood'.1
                rw [goodRemovals] at this
                rw [if_pos rfl] at this
                simp only [Bool.and_eq_true] at this
                exact this
              obtain ⟨lsc, happc, hobsc⟩ := ih ca cb hszcc hwca hwcb hgoodab.2
              obtain ⟨el', hel, hobse⟩ := modify_roundtrip_case ta pa ca pb cb
                hwpa hwpb hgoodab.1 lsc happc hobsc
              refine ⟨el' :: ls', applyChildren_cons_modify hel happ', ?_⟩
              rw [obsEqList, Bool.and_eq_true]
              exact ⟨hobse, hobs'⟩
            · have hd : diffOne (VNode.elem ta pa ca) (VNode.elem tb pb cb) =
                  Patch.replace (VNode.elem tb pb cb) := by
                simp [diffOne, ht]
              rw [hd]
              refine ⟨createLive (VNode.elem tb pb cb) :: ls',
                applyChildren_cons_replace _ _ happ', ?_⟩
              rw [obsEqList, Bool.and_eq_true]
              exact ⟨obsEq_refl _, hobs'⟩

end SMVC

namespace SMVC

/-- C1 (counterexample to the claim as stated).  `checked` is on the
direct-property allow-list, so `create` sets it via `el["checked"] =
true`, but the removal loop of `modify` calls `el.removeAttribute`,
which does not clear the direct property: patching the live tree of
`<input checked>` towards `<input>` leaves `checked` set, so the result
is observably different from a live tree created directly from the new
virtual node.  Both trees are well formed. -/
theorem diff_patch_roundtrip_claim_counterexample :
    (VNode.elem "input" [("checked", .bool true)] []).wfB = true ∧
    (VNode.elem "input" [] []).wfB = true ∧
    (applyChildren [createLive (.elem "input" [("checked", .bool true)] [])]
        [diffOne (.elem "input" [("checked", .bool true)] [])
          (.elem "input" [] [])]).map
      (fun l => obsEqList l [createLive (.elem "input" [] [])]) = some false := by
  have he : eventName "checked" = none := by decide
  have hcont : props.contains "checked" = true := by decide
  have hmem : "checked" ∈ props := by decide
  refine ⟨by simp [VNode.wfB, wfProps], by simp [VNode.wfB, wfProps], ?_⟩
  have hd : diffOne (.elem "input" [("checked", .bool true)] [])
      (.elem "input" [] []) = .modify ["checked"] [] [] := by
    simp [diffOne, removedProps, setProps, lookupProp, diffList]
  have hca : createLive (.elem "input" [("checked", .bool true)] []) =
      .elem "input" [] [("checked", .bool true)] [] [] [] := by
    simp [createLive, stepProp, he, setProperty, hcont, hmem, setStore, List.attach]
  have hcb : createLive (.elem "input" [] []) =
      .elem "input" [] [] [] [] [] := by
    simp [createLive, List.attach]
  have hm : modifyLive (.elem "input" [] [("checked", .bool true)] [] [] [])
      ["checked"] [] [] =
      some (.elem "input" [] [("checked", .bool true)] [] [] []) := by
    rw [modifyLive]
    simp [stepRemove, he, removeAttributeEl, removeStore, applyOrig, appendedNodes]
  rw [hd, hca, hcb]
  rw [applyChildren]
  simp only [applyOrig, hm, Option.bind_eq_bind, Option.some_bind]
  rw [appendedNodes_cons_noncreate _ _ (by intro n h; cases h)]
  simp only [appendedNodes, List.filterMap_nil, List.append_nil, Option.map_some']
  simp [obsEqList, obsEq, storeEq, lookupProp]

/-- C1 (amended).  Diff-then-patch round trip: for well-formed trees `a`
and `b` (property maps are JS objects, so keys are distinct), and
provided the diff removes no allow-listed direct property at any level
(those are set as element properties but removed via `removeAttribute`,
which cannot clear them — see the counterexample), applying the patch
`diffOne a b` (child patches from `diffList`) through `apply`/`modify`
to a live tree created from `a` succeeds and yields a live tree
observably identical — same tags, same attribute and property values,
same text, same child count and order — to one created directly from
`b`. -/
theorem diff_patch_roundtrip (a b : VNode)
    (hwa : a.wfB = true) (hwb : b.wfB = true)
    (hgood : goodRemovals a b = true) :
    ∃ ls, applyChildren [createLive a] [diffOne a b] = some ls ∧
      obsEqList ls [createLive b] = true := by
  obtain ⟨ls, h1, h2⟩ := roundtrip_list (sizeOf [a] + sizeOf [b]) [a] [b] le_rfl
    (by intro x hx; rw [List.mem_singleton] at hx; subst hx; exact hwa)
    (by intro x hx; rw [List.mem_singleton] at hx; subst hx; exact hwb)
    (by rw [goodRemovalsList, hgood]; simp [goodRemovalsList])
  rw [diffList, diffList] at h1
  simp only [List.map_cons, List.map_nil] at h1 h2
  exact ⟨ls, h1, h2⟩

theorem diff_patch_roundtrip_witness :
    (VNode.elem "div" [("id", .str "x")] [.text "old"]).wfB = true ∧
    (VNode.elem "div" [("id", .str "y"), ("title", .str "t")] [.text "new"]).wfB = true ∧
    goodRemovals (VNode.elem "div" [("id", .str "x")] [.text "old"])
      (VNode.elem "div" [("id", .str "y"), ("title", .str "t")] [.text "new"]) = true ∧
    (∃ ls, applyChildren
        [createLive (.elem "div" [("id", .str "x")] [.text "old"])]
        [diffOne (.elem "div" [("id", .str "x")] [.text "old"])
          (.elem "div" [("id", .str "y"), ("title", .str "t")] [.text "new"])] =
        some ls ∧
      obsEqList ls
        [createLive (.elem "div" [("id", .str "y"), ("title", .str "t")]
          [.text "new"])] = true) := by
  have h1 : (VNode.elem "div" [("id", .str "x")] [.text "old"]).wfB = true := by
    simp [VNode.wfB, wfProps, List.attach]
  have h2 : (VNode.elem "div" [("id", .str "y"), ("title", .str "t")]
      [.text "new"]).wfB = true := by
    simp [VNode.wfB, wfProps, List.attach]
  have h3 : goodRemovals (VNode.elem "div" [("id", .str "x")] [.text "old"])
      (VNode.elem "div" [("id", .str "y"), ("title", .str "t")] [.text "new"]) =
      true := by
    simp [goodRemovals, goodRemovalsList, removedProps, lookupProp]
  exact ⟨h1, h2, h3, diff_patch_roundtrip _ _ h1 h2 h3⟩

end SMVC
